import Mathlib

/-!
Verification of the pigpak tree store and chunked transfer engine.

Shallow embedding conventions:
* SQLite rows (directories, files, file_parts, shares) are Lean structures;
  the database is a `Store` holding lists of rows.  `SELECT ... LIMIT 1`
  becomes `List.find?`, `DELETE`/`UPDATE` become `filter`/`map`.
* Telegram blob references are opaque in the source; here a reference is
  modeled by the byte content it denotes (`Ref := List Nat`), so that
  "download the blob behind this reference" is the identity.
* Errors: `sql.ErrNoRows` is `DBError.noRows`, the `os.ErrExist`-wrapped
  name conflict is `DBError.nameConflict`, `errors.New(msg)` is
  `DBError.invalidOp msg`, and an underlying persistence fault of a single
  SQL statement is `DBError.storage`.
* Mutating store operations return `Except DBError α × Store`: the Go code
  mutates a shared database even on some error paths, so the resulting
  state is always returned alongside the result.
* Timestamps are integers (UTC nanoseconds); `time.Time.After` is `<`.
-/

namespace Pigpak

/-- A byte of an uploaded/downloaded stream (value unconstrained). -/
abbrev Byte := Nat

/-- A Telegram blob reference, modeled by the byte content it denotes. -/
abbrev Ref := List Byte

/-- Row of the `directories` table (source: `db.Directory`). `parent = none`
models `parent_id IS NULL`, which marks the owner's root. -/
structure Directory where
  id : Nat
  userID : Nat
  parent : Option Nat
  name : String
  deriving DecidableEq, Repr

/-- Row of the `files` table (source: `db.File`).  `fileID`/`fileUniqueID`
are the Telegram blob references of the primary blob. -/
structure File where
  id : Nat
  userID : Nat
  dirID : Nat
  name : String
  fileID : Ref
  fileUniqueID : Ref
  size : Nat
  mimeType : String
  deriving DecidableEq, Repr

/-- Row of the `file_parts` table (source: `db.FilePart`). -/
structure FilePart where
  fileID : Nat
  partIndex : Nat
  telegramFileID : Ref
  fileUniqueID : Ref
  size : Nat
  deriving DecidableEq, Repr

/-- Input used to insert file parts (source: `db.FilePartInput`). -/
structure FilePartInput where
  partIndex : Nat
  telegramFileID : Ref
  fileUniqueID : Ref
  size : Nat
  deriving DecidableEq, Repr

/-- Row of the `shares` table (source: `db.Share`).  `expiresAt = none`
models `expires_at IS NULL` (no expiry). -/
structure Share where
  id : Nat
  fileID : Nat
  token : String
  expiresAt : Option Int
  uses : Nat
  deriving DecidableEq, Repr

/-- The relational state: the four tables the claims are about, plus the
autoincrement counter for fresh row ids. -/
structure Store where
  dirs : List Directory
  files : List File
  fileParts : List FilePart
  shares : List Share
  nextID : Nat
  deriving DecidableEq, Repr

/-- Error taxonomy of the Go store layer. -/
inductive DBError where
  /-- the `sql.ErrNoRows` error -/
  | noRows
  /-- the `os.ErrExist`-wrapped "name already exists" error -/
  | nameConflict
  /-- an `errors.New(msg)` structural error -/
  | invalidOp (msg : String)
  /-- an underlying persistence fault of one SQL statement -/
  | storage
  deriving DecidableEq, Repr

/-- Source: `Store.GetDirByID` — `SELECT ... FROM directories WHERE id = ?
AND user_id = ?`. -/
def getDirByID (st : Store) (userID dirID : Nat) : Except DBError Directory :=
  match st.dirs.find? (fun d => d.id = dirID && d.userID = userID) with
  | some d => .ok d
  | none => .error .noRows

/-- Source: `Store.GetDirByName` — `SELECT ... FROM directories WHERE
user_id = ? AND parent_id = ? AND name = ?`.  SQL `parent_id = ?` never
matches a NULL parent, hence the `some parentID` comparison. -/
def getDirByName (st : Store) (userID parentID : Nat) (name : String) :
    Except DBError Directory :=
  match st.dirs.find? (fun d =>
      d.userID = userID && d.parent = some parentID && d.name = name) with
  | some d => .ok d
  | none => .error .noRows

/-- Source: `Store.GetFileByID` — `SELECT ... FROM files WHERE id = ? AND
user_id = ?`. -/
def getFileByID (st : Store) (userID fileID : Nat) : Except DBError File :=
  match st.files.find? (fun f => f.id = fileID && f.userID = userID) with
  | some f => .ok f
  | none => .error .noRows

/-- Source: `Store.GetFileByName` — `SELECT ... FROM files WHERE user_id = ?
AND dir_id = ? AND name = ?`. -/
def getFileByName (st : Store) (userID dirID : Nat) (name : String) :
    Except DBError File :=
  match st.files.find? (fun f =>
      f.userID = userID && f.dirID = dirID && f.name = name) with
  | some f => .ok f
  | none => .error .noRows

/-- Source: `Store.ensureNameAvailable`.  A sibling directory conflicts
unless it is the excluded directory, a sibling file conflicts unless it is
the excluded file; an exclusion id of `0` excludes nothing. -/
def ensureNameAvailable (st : Store) (userID parentID : Nat) (name : String)
    (excludeDirID excludeFileID : Nat) : Except DBError Unit :=
  match getDirByName st userID parentID name with
  | .ok d =>
      if excludeDirID = 0 || d.id != excludeDirID then .error .nameConflict
      else
        match getFileByName st userID parentID name with
        | .ok f =>
            if excludeFileID = 0 || f.id != excludeFileID then
              .error .nameConflict
            else .ok ()
        | .error _ => .ok ()
  | .error _ =>
      match getFileByName st userID parentID name with
      | .ok f =>
          if excludeFileID = 0 || f.id != excludeFileID then
            .error .nameConflict
          else .ok ()
      | .error _ => .ok ()

/-- Source: `Store.EnsureUser` — inserts the root directory (name `"/"`,
NULL parent) if the user has none yet; returns the root id. -/
def ensureUser (st : Store) (userID : Nat) : Nat × Store :=
  match st.dirs.find? (fun d => d.userID = userID && d.parent = none) with
  | some d => (d.id, st)
  | none =>
      let root : Directory :=
        { id := st.nextID, userID := userID, parent := none, name := "/" }
      (st.nextID, { st with dirs := st.dirs ++ [root], nextID := st.nextID + 1 })

/-- Source: `Store.GetRootDirID` — `SELECT id FROM directories WHERE
user_id = ? AND parent_id IS NULL LIMIT 1`, falling back to `EnsureUser`
(which mutates the store) when the user has no root yet. -/
def getRootDirID (st : Store) (userID : Nat) : Nat × Store :=
  match st.dirs.find? (fun d => d.userID = userID && d.parent = none) with
  | some d => (d.id, st)
  | none => ensureUser st userID

/-- Source: `ValidateShare` — fails iff an expiry is set and the current
time is strictly after it (`time.Time.After`). -/
def validateShare (sh : Share) (now : Int) : Except String Unit :=
  match sh.expiresAt with
  | some t => if t < now then .error "share expired" else .ok ()
  | none => .ok ()

/-- Source: `Store.GetShareByToken` — looks up the share by token, then the
file by the share's `file_id` (with no user filter). -/
def getShareByToken (st : Store) (token : String) :
    Except DBError (Share × File) :=
  match st.shares.find? (fun sh => sh.token = token) with
  | none => .error .noRows
  | some sh =>
      match st.files.find? (fun f => f.id = sh.fileID) with
      | none => .error .noRows
      | some f => .ok (sh, f)

/-! ### SQL `ORDER BY name`

SQLite's default BINARY collation compares names as UTF-8 byte strings
(`memcmp`), which coincides with lexicographic comparison of the code
points; the row set of an `ORDER BY name` query is modeled by an insertion
sort of the filtered rows under that order. -/

/-- Lexicographic comparison of byte strings (`memcmp`-style `≤`). -/
def bytesLe : List Nat → List Nat → Bool
  | [], _ => true
  | _ :: _, [] => false
  | a :: as, b :: bs =>
      if a < b then true else if a = b then bytesLe as bs else false

/-- SQLite BINARY collation on names. -/
def nameLe (a b : String) : Bool :=
  bytesLe (a.data.map Char.toNat) (b.data.map Char.toNat)

/-- Insert `x` into a list sorted by `key`, keeping it sorted. -/
def insertByName (key : α → String) (x : α) : List α → List α
  | [] => [x]
  | y :: ys =>
      if nameLe (key x) (key y) then x :: y :: ys else y :: insertByName key x ys

/-- Sort a row list by `key` (models SQL `ORDER BY name`). -/
def sortByName (key : α → String) (l : List α) : List α :=
  l.foldr (insertByName key) []

/-- Source: `Store.ListDirs` — `SELECT ... FROM directories WHERE user_id =
? AND parent_id = ? ORDER BY name`. -/
def listDirs (st : Store) (userID parentID : Nat) : List Directory :=
  sortByName (fun d => d.name)
    (st.dirs.filter (fun d => d.userID = userID && d.parent = some parentID))

/-- Source: `Store.ListFiles` — `SELECT ... FROM files WHERE user_id = ? AND
dir_id = ? ORDER BY name`. -/
def listFiles (st : Store) (userID dirID : Nat) : List File :=
  sortByName (fun f => f.name)
    (st.files.filter (fun f => f.userID = userID && f.dirID = dirID))

/-- Source: `Store.ListFileParts` — `SELECT ... FROM file_parts WHERE
file_id = ? ORDER BY part_index`.  Part indices play the role of names;
the sort is by the numeric index. -/
def listFileParts (st : Store) (fileID : Nat) : List FilePart :=
  (st.fileParts.filter (fun p => p.fileID = fileID)).mergeSort
    (fun a b => a.partIndex ≤ b.partIndex)

/-! ### The recursive-CTE subtree enumeration

`Store.isDescendant` and `Store.DeleteDirRecursive` use the recursive CTE
`subtree(id) AS (SELECT id ... WHERE id = ? AND user_id = ?  UNION ALL
SELECT d.id FROM directories d JOIN subtree s ON d.parent_id = s.id)`.
The CTE evaluates breadth-first: each round joins the previous frontier
against `directories` (with no user filter in the recursive step).  On an
acyclic directory table it saturates after at most `|dirs|` rounds, so the
enumeration is modeled with `|dirs| + 1` rounds of expansion. -/

/-- One CTE round: the ids of directories whose parent is in `frontier`. -/
def childIDs (dirs : List Directory) (frontier : List Nat) : List Nat :=
  (dirs.filter (fun d =>
      match d.parent with
      | some p => frontier.contains p
      | none => false)).map (fun d => d.id)

/-- Runs `fuel` rounds of the recursive CTE starting from `frontier`. -/
def subtreeLevels (dirs : List Directory) : Nat → List Nat → List Nat
  | 0, _ => []
  | n + 1, frontier => frontier ++ subtreeLevels dirs n (childIDs dirs frontier)

/-- The id set produced by the subtree CTE seeded at `(dirID, userID)`. -/
def subtreeIDs (st : Store) (userID dirID : Nat) : List Nat :=
  subtreeLevels st.dirs (st.dirs.length + 1)
    ((st.dirs.filter (fun d => d.id = dirID && d.userID = userID)).map
      (fun d => d.id))

/-- Source: `Store.isDescendant` — membership of `targetID` in the
enumerated subtree rooted at `dirID`. -/
def isDescendant (st : Store) (userID dirID targetID : Nat) : Bool :=
  (subtreeIDs st userID dirID).contains targetID

/-! ### Mutating store operations -/

/-- Source: `Store.CreateDir` — name check, then `INSERT INTO directories`. -/
def createDir (st : Store) (userID parentID : Nat) (name : String) :
    Except DBError Directory × Store :=
  match ensureNameAvailable st userID parentID name 0 0 with
  | .error e => (.error e, st)
  | .ok () =>
      let d : Directory :=
        { id := st.nextID, userID := userID, parent := some parentID, name := name }
      (.ok d, { st with dirs := st.dirs ++ [d], nextID := st.nextID + 1 })

/-- Source: `Store.RenameDir` — loads the directory, takes `parent_id` with
NULL read as `0` (`parentID := int64(0)` when `!dir.ParentID.Valid`), runs
the name check excluding the directory itself, then `UPDATE directories SET
name = ?`. -/
def renameDir (st : Store) (userID dirID : Nat) (name : String) :
    Except DBError Unit × Store :=
  match getDirByID st userID dirID with
  | .error e => (.error e, st)
  | .ok dir =>
      let parentID := dir.parent.getD 0
      match ensureNameAvailable st userID parentID name dirID 0 with
      | .error e => (.error e, st)
      | .ok () =>
          if st.dirs.any (fun d => d.id = dirID && d.userID = userID) then
            (.ok (), { st with
              dirs := st.dirs.map (fun d =>
                if d.id = dirID && d.userID = userID then { d with name := name }
                else d) })
          else (.error .noRows, st)

/-- Source: `Store.MoveDir` — root check, self check, descendant check via
the subtree enumeration, name check excluding the moved directory, then
`UPDATE directories SET parent_id = ?`. -/
def moveDir (st : Store) (userID dirID newParentID : Nat) :
    Except DBError Unit × Store :=
  let (rootID, st) := getRootDirID st userID
  if dirID = rootID then
    (.error (.invalidOp "cannot move root directory"), st)
  else if dirID = newParentID then
    (.error (.invalidOp "cannot move directory into itself"), st)
  else if isDescendant st userID dirID newParentID then
    (.error (.invalidOp "cannot move directory into its descendant"), st)
  else
    match getDirByID st userID dirID with
    | .error e => (.error e, st)
    | .ok dir =>
        match ensureNameAvailable st userID newParentID dir.name dirID 0 with
        | .error e => (.error e, st)
        | .ok () =>
            if st.dirs.any (fun d => d.id = dirID && d.userID = userID) then
              (.ok (), { st with
                dirs := st.dirs.map (fun d =>
                  if d.id = dirID && d.userID = userID then
                    { d with parent := some newParentID }
                  else d) })
            else (.error .noRows, st)

/-- Source: `Store.DeleteDirRecursive` — root check, then two separate
top-level SQL statements (no enclosing transaction): first `DELETE FROM
files WHERE dir_id IN subtree`, then `DELETE FROM directories WHERE id IN
subtree`.  `failDirs` injects a persistence fault into the second
statement, which the Go code surfaces as an error after the first
statement has already committed. -/
def deleteDirRecursive (st : Store) (userID dirID : Nat) (failDirs : Bool) :
    Except DBError Unit × Store :=
  let (rootID, st) := getRootDirID st userID
  if dirID = rootID then
    (.error (.invalidOp "cannot delete root directory"), st)
  else
    let sub := subtreeIDs st userID dirID
    let st := { st with files := st.files.filter (fun f => !sub.contains f.dirID) }
    if failDirs then (.error .storage, st)
    else (.ok (), { st with dirs := st.dirs.filter (fun d => !sub.contains d.id) })

/-- The file row the `INSERT INTO files` of `CreateFile` and
`CreateFileWithParts` adds: a fresh id and the
`application/octet-stream` mime default. -/
def mkFileRow (st : Store) (userID dirID : Nat) (name : String)
    (fileID fileUniqueID : Ref) (size : Nat) (mimeType : String) : File :=
  { id := st.nextID, userID := userID, dirID := dirID, name := name,
    fileID := fileID, fileUniqueID := fileUniqueID, size := size,
    mimeType := if mimeType = "" then "application/octet-stream"
      else mimeType }

/-- Source: `Store.CreateFile` — name check, mime default, `INSERT INTO
files` (no part rows). -/
def createFile (st : Store) (userID dirID : Nat) (name : String)
    (fileID fileUniqueID : Ref) (size : Nat) (mimeType : String) :
    Except DBError File × Store :=
  match ensureNameAvailable st userID dirID name 0 0 with
  | .error e => (.error e, st)
  | .ok () =>
      (.ok (mkFileRow st userID dirID name fileID fileUniqueID size mimeType),
       { st with
         files := st.files ++
           [mkFileRow st userID dirID name fileID fileUniqueID size mimeType],
         nextID := st.nextID + 1 })

/-- Source: `insertFilePartsTx` — inserts one `file_parts` row per input. -/
def insertFilePartsTx (fileRowID : Nat) (parts : List FilePartInput) :
    List FilePart :=
  parts.map (fun p =>
    { fileID := fileRowID, partIndex := p.partIndex,
      telegramFileID := p.telegramFileID, fileUniqueID := p.fileUniqueID,
      size := p.size })

/-- Source: `Store.CreateFileWithParts` — name check, then in one
transaction: insert the file row and, only when more than one part exists,
all the part rows. -/
def createFileWithParts (st : Store) (userID dirID : Nat) (name : String)
    (fileID fileUniqueID : Ref) (size : Nat) (mimeType : String)
    (parts : List FilePartInput) : Except DBError File × Store :=
  match ensureNameAvailable st userID dirID name 0 0 with
  | .error e => (.error e, st)
  | .ok () =>
      (.ok (mkFileRow st userID dirID name fileID fileUniqueID size mimeType),
       { st with
         files := st.files ++
           [mkFileRow st userID dirID name fileID fileUniqueID size mimeType],
         fileParts := st.fileParts ++
           (if parts.length > 1 then insertFilePartsTx st.nextID parts
            else []),
         nextID := st.nextID + 1 })

/-- The row rewrite the `UPDATE files SET name, file_id, file_unique_id,
size, mime_type WHERE id = ? AND user_id = ?` of `ReplaceFileWithParts`
applies: the matched row gets the new content fields, every other row is
untouched, and `id`/`dir_id`/`user_id` are not in the SET list. -/
def replaceRow (fileID userID : Nat) (name : String)
    (telegramFileID fileUniqueID : Ref) (size : Nat) (mimeType : String)
    (g : File) : File :=
  if g.id = fileID && g.userID = userID then
    { g with name := name, fileID := telegramFileID,
             fileUniqueID := fileUniqueID, size := size,
             mimeType := if mimeType = "" then "application/octet-stream"
               else mimeType }
  else g

/-- Source: `Store.ReplaceFileWithParts` — loads the file, name check
excluding the file itself, then in one transaction: the row update
(`replaceRow`), `DELETE FROM file_parts WHERE file_id = ?`, and insertion
of the new part rows only when more than one part exists. -/
def replaceFileWithParts (st : Store) (userID fileID : Nat) (name : String)
    (telegramFileID fileUniqueID : Ref) (size : Nat) (mimeType : String)
    (parts : List FilePartInput) : Except DBError Unit × Store :=
  match getFileByID st userID fileID with
  | .error e => (.error e, st)
  | .ok file =>
      match ensureNameAvailable st userID file.dirID name 0 fileID with
      | .error e => (.error e, st)
      | .ok () =>
          if st.files.any (fun f => f.id = fileID && f.userID = userID) then
            (.ok (), { st with
              files := st.files.map (replaceRow fileID userID name
                telegramFileID fileUniqueID size mimeType),
              fileParts :=
                st.fileParts.filter (fun p => !(p.fileID = fileID)) ++
                  (if parts.length > 1 then insertFilePartsTx fileID parts
                   else []) })
          else (.error .noRows, st)

/-- Source: `Store.RenameFile` — loads the file, name check against the
file's own directory excluding the file itself, then `UPDATE files SET
name = ?`. -/
def renameFile (st : Store) (userID fileID : Nat) (name : String) :
    Except DBError Unit × Store :=
  match getFileByID st userID fileID with
  | .error e => (.error e, st)
  | .ok file =>
      match ensureNameAvailable st userID file.dirID name 0 fileID with
      | .error e => (.error e, st)
      | .ok () =>
          if st.files.any (fun f => f.id = fileID && f.userID = userID) then
            (.ok (), { st with
              files := st.files.map (fun f =>
                if f.id = fileID && f.userID = userID then { f with name := name }
                else f) })
          else (.error .noRows, st)

/-- Source: `Store.MoveFile` — loads the file, name check against the
destination directory excluding the file itself, then `UPDATE files SET
dir_id = ?`. -/
def moveFile (st : Store) (userID fileID newDirID : Nat) :
    Except DBError Unit × Store :=
  match getFileByID st userID fileID with
  | .error e => (.error e, st)
  | .ok file =>
      match ensureNameAvailable st userID newDirID file.name 0 fileID with
      | .error e => (.error e, st)
      | .ok () =>
          if st.files.any (fun f => f.id = fileID && f.userID = userID) then
            (.ok (), { st with
              files := st.files.map (fun f =>
                if f.id = fileID && f.userID = userID then { f with dirID := newDirID }
                else f) })
          else (.error .noRows, st)

/-! ### Chunked upload engine

`uploadFile` relays written bytes into the current part's pipe; the
background transfer task uploads exactly the bytes that flow through the
pipe, so in this embedding a finished part is simply the list of bytes
that were written into it, and the Telegram document handed back for it
denotes those bytes (`Ref`). -/

/-- Default `maxPartSize` used when the configured value is not positive
(source: `newUploadFile`, `1900 * 1024 * 1024`). -/
def defaultMaxPartSize : Nat := 1900 * 1024 * 1024

/-- In-flight upload state (source: the `uploadFile` struct fields that the
write/close path reads: `maxPartSize`, the open part's bytes, the finished
parts, and the running `totalSize`).  The Go constructor guarantees a
positive part size, recorded here as `maxPos`. -/
structure UploadState where
  maxPartSize : Nat
  maxPos : 0 < maxPartSize
  /-- bytes of the currently open part; `[]` models `current == nil`
  (whenever `current` exists at rest it holds at least one byte) -/
  cur : List Byte
  /-- contents of the finished parts, in part-index order -/
  parts : List (List Byte)
  /-- running `totalSize` -/
  total : Nat

/-- Source: `newUploadFile` — substitutes the default when the configured
maximum part size is not positive. -/
def newUploadFile (maxPartSize : Nat) : UploadState :=
  if h : maxPartSize = 0 then
    { maxPartSize := defaultMaxPartSize, maxPos := by decide,
      cur := [], parts := [], total := 0 }
  else
    { maxPartSize := maxPartSize, maxPos := Nat.pos_of_ne_zero h,
      cur := [], parts := [], total := 0 }

/-- The byte count one loop iteration of `uploadFile.Write` moves into the
open part: `toWrite = min(len(p), maxPartSize - current.size)`. -/
def writeChunk (M : Nat) (cur p : List Byte) : Nat :=
  min p.length (M - cur.length)

/-- Source: the loop body of `uploadFile.Write`.  Each iteration: if the
open part already holds `maxPartSize` bytes it is finished first
(`remaining <= 0` branch); otherwise `writeChunk` bytes are moved from `p`
into the open part, and the part is finished as soon as its byte count
reaches `maxPartSize` (`needFinish`). -/
def uploadWriteAux (M : Nat) (hM : 0 < M) (cur : List Byte)
    (parts : List (List Byte)) (p : List Byte) :
    List (List Byte) × List Byte :=
  match p with
  | [] => (parts, cur)
  | b :: rest =>
      if h1 : M ≤ cur.length then
        uploadWriteAux M hM [] (parts ++ [cur]) (b :: rest)
      else
        if M ≤ cur.length + writeChunk M cur (b :: rest) then
          uploadWriteAux M hM []
            (parts ++ [cur ++ (b :: rest).take (writeChunk M cur (b :: rest))])
            ((b :: rest).drop (writeChunk M cur (b :: rest)))
        else
          uploadWriteAux M hM
            (cur ++ (b :: rest).take (writeChunk M cur (b :: rest)))
            parts ((b :: rest).drop (writeChunk M cur (b :: rest)))
  termination_by (p.length, cur.length)
  decreasing_by
  · apply Prod.Lex.right
    simp only [List.length_nil]
    omega
  · apply Prod.Lex.left
    simp only [List.length_drop, List.length_cons, writeChunk]
    omega
  · apply Prod.Lex.left
    simp only [List.length_drop, List.length_cons, writeChunk]
    omega

/-- Source: `uploadFile.Write` — the whole-call effect of one `Write(p)`.
Each loop iteration adds the bytes it moved to `totalSize`; over the call
these add up to `len(p)`. -/
def uploadWrite (u : UploadState) (p : List Byte) : UploadState :=
  let r := uploadWriteAux u.maxPartSize u.maxPos u.cur u.parts p
  { u with parts := r.1, cur := r.2, total := u.total + p.length }

/-- The parts recorded once `Close` has flushed the open part
(source: the `finishPart()` call at the top of `uploadFile.Close`). -/
def closeParts (u : UploadState) : List (List Byte) :=
  u.parts ++ (if u.cur.isEmpty then [] else [u.cur])

/-- The `db.FilePartInput` records built by `finishPart` across the upload:
part `i` carries index `i`, the references of the blob holding its bytes,
and the confirmed size. -/
def partInputs (parts : List (List Byte)) : List FilePartInput :=
  parts.enum.map (fun ic =>
    { partIndex := ic.1, telegramFileID := ic.2, fileUniqueID := ic.2,
      size := ic.2.length })

/-- Source: `uploadFile.Close` — flushes the open part; with no recorded
parts it fails with "empty upload" before touching the store; with an
existing file it calls `ReplaceFileWithParts`; otherwise
`CreateFileWithParts` when more than one part exists, else `CreateFile`. -/
def closeUpload (u : UploadState) (st : Store) (ownerID parentDirID : Nat)
    (name : String) (existing : Option Nat) (mimeType : String) :
    Except DBError Unit × Store :=
  match partInputs (closeParts u) with
  | [] => (.error (.invalidOp "empty upload"), st)
  | first :: restParts =>
      let parts := first :: restParts
      match existing with
      | some fid =>
          replaceFileWithParts st ownerID fid name first.telegramFileID
            first.fileUniqueID u.total mimeType parts
      | none =>
          if parts.length > 1 then
            let r := createFileWithParts st ownerID parentDirID name
              first.telegramFileID first.fileUniqueID u.total mimeType parts
            (r.1.map (fun _ => ()), r.2)
          else
            let r := createFile st ownerID parentDirID name
              first.telegramFileID first.fileUniqueID u.total mimeType
            (r.1.map (fun _ => ()), r.2)

/-! ### Chunked download engine -/

/-- A part as seen by `readFile`: the `file_parts` row's recorded size and
the byte content of the blob behind its reference. -/
structure ReadPart where
  size : Nat
  content : List Byte
  deriving DecidableEq, Repr

/-- Source: `locatePart` — linear scan for the part whose cumulative
preceding size covers `offset`; returns `(len(parts), 0)` past the end. -/
def locatePartAux : List ReadPart → Nat → Nat → Nat → Nat × Nat
  | [], _, i, _ => (i, 0)
  | part :: rest, offset, i, total =>
      if offset < total + part.size then (i, offset - total)
      else locatePartAux rest offset (i + 1) (total + part.size)

/-- Source: `locatePart` (entry point, `i = 0`, `total = 0`). -/
def locatePart (parts : List ReadPart) (offset : Nat) : Nat × Nat :=
  locatePartAux parts offset 0 0

/-- The bytes yielded by calling `readFile.Read` repeatedly until EOF from
position (`partIndex = i`, `partOffset = po`): the rest of part `i`
(downloaded from byte offset `po`), then each following part in full;
EOF once `partIndex` reaches `len(parts)`. -/
def readToEnd (parts : List ReadPart) (i po : Nat) : List Byte :=
  if h : i < parts.length then
    (parts.get ⟨i, h⟩).content.drop po ++ readToEnd parts (i + 1) 0
  else []
  termination_by parts.length - i

/-- Source: `newReadFile` — `totalSize` is the file row's size, recomputed
as the sum of part sizes when the row says 0 and parts exist. -/
def readTotalSize (fileSize : Nat) (parts : List ReadPart) : Nat :=
  if fileSize = 0 ∧ 0 < parts.length then (parts.map (fun p => p.size)).sum
  else fileSize

/-- Source: `readFile.Seek` with `whence = io.SeekStart` — rejects offsets
beyond a known total size, then repositions via `locatePart` when parts
exist. -/
def seekStart (parts : List ReadPart) (totalSize offset : Nat) :
    Except String (Nat × Nat) :=
  if 0 < totalSize ∧ totalSize < offset then .error "seek beyond end"
  else .ok (if 0 < parts.length then locatePart parts offset else (0, 0))

/-! ### WebDAV directory listing -/

/-- The stat-like record (source: `davFileInfo`, the fields Readdir
exposes). -/
structure DavFileInfo where
  name : String
  size : Nat
  isDir : Bool
  deriving DecidableEq, Repr

/-- Source: `dirInfo` — the root (NULL parent) is presented with an empty
name. -/
def dirInfo (d : Directory) : DavFileInfo :=
  { name := if d.parent = none then "" else d.name, size := 0, isDir := true }

/-- Source: `fileInfo`. -/
def fileInfo (f : File) : DavFileInfo :=
  { name := f.name, size := f.size, isDir := false }

/-- Source: `dirFile.Readdir` populating `d.infos`: all child directories
(from `ListDirs`), then all child files (from `ListFiles`). -/
def readdirAll (st : Store) (userID dirID : Nat) : List DavFileInfo :=
  (listDirs st userID dirID).map dirInfo ++ (listFiles st userID dirID).map fileInfo

/-! ### Specification-side notions used to state the claims -/

/-- Node `c` lies strictly below `a` in the parent-pointer graph of `dirs`,
witnessed by a parent chain of length `k` (each link is a row of `dirs`
whose `parent_id` is the previous node). -/
inductive DescDepth (dirs : List Directory) : Nat → Nat → Nat → Prop where
  | child {a : Nat} {d : Directory} :
      d ∈ dirs → d.parent = some a → DescDepth dirs a d.id 1
  | cons {a c k : Nat} {d : Directory} :
      d ∈ dirs → d.parent = some a → DescDepth dirs d.id c k →
      DescDepth dirs a c (k + 1)

/-- Node `c` is a descendant of `a` at some depth. -/
def Desc (dirs : List Directory) (a c : Nat) : Prop :=
  ∃ k, DescDepth dirs a c k

/-- Acyclicity of the directory table, witnessed by a rank: each child's
rank is one more than its parent's.  Any state reachable through the store
API admits such a rank (the tree depth), bounded by the table size. -/
structure Ranked (dirs : List Directory) (lvl : Nat → Nat) : Prop where
  parentStep : ∀ d ∈ dirs, ∀ q, d.parent = some q → lvl d.id = lvl q + 1
  bound : ∀ d ∈ dirs, lvl d.id ≤ dirs.length

/-- At most one directory row per `(owner, parent, name)` key — invariant 2
of the spec, assumed of the pre-state where a claim needs it. -/
def UniqueDirNames (st : Store) : Prop :=
  ∀ d1 ∈ st.dirs, ∀ d2 ∈ st.dirs,
    d1.userID = d2.userID → d1.parent = d2.parent → d1.name = d2.name → d1 = d2

/-- At most one file row per `(owner, dir, name)` key. -/
def UniqueFileNames (st : Store) : Prop :=
  ∀ f1 ∈ st.files, ∀ f2 ∈ st.files,
    f1.userID = f2.userID → f1.dirID = f2.dirID → f1.name = f2.name → f1 = f2

/-- Some sibling directory (other than the excluded row, `0` excluding
nothing) already owns `name` under `(userID, parentID)`. -/
def ConflictingDir (st : Store) (userID parentID : Nat) (name : String)
    (excl : Nat) : Prop :=
  ∃ d ∈ st.dirs, d.userID = userID ∧ d.parent = some parentID ∧
    d.name = name ∧ (excl = 0 ∨ d.id ≠ excl)

/-- Some sibling file (other than the excluded row) already owns `name`
under `(userID, parentID)`. -/
def ConflictingFile (st : Store) (userID parentID : Nat) (name : String)
    (excl : Nat) : Prop :=
  ∃ f ∈ st.files, f.userID = userID ∧ f.dirID = parentID ∧
    f.name = name ∧ (excl = 0 ∨ f.id ≠ excl)

/-- A fresh upload stream with a given positive maximum part size (the
state `newUploadFile` produces, with the size made explicit). -/
def freshUpload (M : Nat) (hM : 0 < M) : UploadState :=
  { maxPartSize := M, maxPos := hM, cur := [], parts := [], total := 0 }

/-- The maximal-`M` chunks of a stream: full chunks plus the open
remainder (`< M` bytes). -/
def splitChunks (M : Nat) (hM : 0 < M) (s : List Byte) :
    List (List Byte) × List Byte :=
  if h : s.length < M then ([], s)
  else
    (s.take M :: (splitChunks M hM (s.drop M)).1,
     (splitChunks M hM (s.drop M)).2)
  termination_by s.length
  decreasing_by
  all_goals
    simp only [List.length_drop]
    omega

/-- The chunks of a nonempty stream after the final flush: slices of `M`
bytes, the last one holding between 1 and `M` bytes. -/
def chunksOf (M : Nat) (hM : 0 < M) (s : List Byte) : List (List Byte) :=
  if h : s.length ≤ M then [s]
  else s.take M :: chunksOf M hM (s.drop M)
  termination_by s.length
  decreasing_by
    simp only [List.length_drop]
    omega

/-- Structural form of the sequential read denotation: the tail of the
first remaining part, then the following parts in full. -/
def partsTail : List ReadPart → Nat → List Byte
  | [], _ => []
  | q :: rest, po => q.content.drop po ++ partsTail rest 0

/-! ## Concrete states used as counterexamples and witnesses -/

/-- A state holding only owner 1's root directory. -/
def rootOnlyStore : Store :=
  { dirs := [{ id := 1, userID := 1, parent := none, name := "/" }],
    files := [], fileParts := [], shares := [], nextID := 2 }

/-- Owner 1's root with a child directory `"z"` and a child file `"a"`. -/
def listingStore : Store :=
  { dirs := [{ id := 1, userID := 1, parent := none, name := "/" },
             { id := 2, userID := 1, parent := some 1, name := "z" }],
    files := [{ id := 3, userID := 1, dirID := 1, name := "a", fileID := [7],
                fileUniqueID := [7], size := 1, mimeType := "text/plain" }],
    fileParts := [], shares := [], nextID := 4 }

/-- Owner 1's root, a subdirectory (id 2) holding one file (id 3). -/
def subtreeStore : Store :=
  { dirs := [{ id := 1, userID := 1, parent := none, name := "/" },
             { id := 2, userID := 1, parent := some 1, name := "docs" }],
    files := [{ id := 3, userID := 1, dirID := 2, name := "a", fileID := [7],
                fileUniqueID := [7], size := 1, mimeType := "text/plain" }],
    fileParts := [], shares := [], nextID := 4 }

/-- Owner 1's root with a chain root → `a` (id 2) → `b` (id 3). -/
def chainStore : Store :=
  { dirs := [{ id := 1, userID := 1, parent := none, name := "/" },
             { id := 2, userID := 1, parent := some 1, name := "a" },
             { id := 3, userID := 1, parent := some 2, name := "b" }],
    files := [], fileParts := [], shares := [], nextID := 4 }

/-- A concrete share expiring at time 10, for the C8 witness. -/
def witnessShare : Share :=
  { id := 1, fileID := 2, token := "t", expiresAt := some 10, uses := 0 }

/-- Owner 1's root holding file 2 (named `"a"`, one stale part row) and a
share with token `"tok"` referencing it. -/
def shareStore : Store :=
  { dirs := [{ id := 1, userID := 1, parent := none, name := "/" }],
    files := [{ id := 2, userID := 1, dirID := 1, name := "a", fileID := [9],
                fileUniqueID := [9], size := 1, mimeType := "text/plain" }],
    fileParts := [{ fileID := 2, partIndex := 0, telegramFileID := [4],
                    fileUniqueID := [4], size := 1 }],
    shares := [{ id := 7, fileID := 2, token := "tok", expiresAt := none,
                 uses := 0 }],
    nextID := 8 }

/-! ## Claim C8 — share validity -/

/-- Claim C8: share validity is a pure function of `expiresAt` and the
current time: with `expiresAt = T` validation succeeds at every instant
before `T` and fails with the "share expired" error at every instant after
`T`; with no `expiresAt` it never fails; and two shares with the same
`expiresAt` validate identically at every instant. -/
theorem validateShare_pure (sh : Share) (now : Int) :
    (∀ T, sh.expiresAt = some T →
      (now < T → validateShare sh now = .ok ()) ∧
      (T < now → validateShare sh now = .error "share expired")) ∧
    (sh.expiresAt = none → validateShare sh now = .ok ()) ∧
    (∀ sh' : Share, sh'.expiresAt = sh.expiresAt →
      validateShare sh' now = validateShare sh now) := by
  refine ⟨fun T hT => ⟨fun h => ?_, fun h => ?_⟩, fun h => ?_, fun sh' h => ?_⟩
  · simp only [validateShare, hT, if_neg (by omega : ¬ T < now)]
  · simp only [validateShare, hT, if_pos h]
  · simp only [validateShare, h]
  · simp only [validateShare, h]

/-- Witness for C8 at a concrete share expiring at time 10, evaluated at
times 9 and 11. -/
theorem validateShare_pure_witness :
    validateShare witnessShare 9 = .ok () ∧
    validateShare witnessShare 11 = .error "share expired" :=
  ⟨((validateShare_pure witnessShare 9).1 10 rfl).1 (by omega),
   ((validateShare_pure witnessShare 11).1 10 rfl).2 (by omega)⟩

/-! ## Claim C4 — the root directory -/

/-- Claim C4 counterexample: `RenameDir` applied to an owner's root
directory does not fail — on a store holding only owner 1's root named
`"/"`, renaming directory 1 returns success and the root's name changes,
contradicting "the root is never renamed ... applying RenameDir ... to the
owner's root directory fails and leaves the root unchanged".  (The root
check guards `MoveDir` and `DeleteDirRecursive` only; `RenameDir` reads the
NULL parent as `0`, finds no sibling there, and updates the row.) -/
theorem renameDir_root_counterexample :
    (renameDir rootOnlyStore 1 1 "renamed").1 = .ok () ∧
    (renameDir rootOnlyStore 1 1 "renamed").2.dirs =
      [{ id := 1, userID := 1, parent := none, name := "renamed" }] :=
  ⟨rfl, rfl⟩

/-- Claim C4 (amended): for every owner, the unique directory with a null
parent can never be moved or deleted — `MoveDir` and `DeleteDirRecursive`
on the root fail with the corresponding structural error and leave the
state unchanged, and `EnsureUser` does not create a second root — but
`RenameDir` on the root succeeds, changing only its name: every row keeps
its id, owner and parent, so the root keeps its null parent. -/
theorem root_protection
    (st : Store) (userID : Nat) (root : Directory) (p : Nat) (name : String)
    (b : Bool)
    (hfindRoot : st.dirs.find? (fun d => d.userID = userID && d.parent = none)
      = some root)
    (hfindById : st.dirs.find? (fun d => d.id = root.id && d.userID = userID)
      = some root)
    (hpar : root.parent = none)
    (hd0 : ∀ d ∈ st.dirs, d.parent ≠ some 0)
    (hf0 : ∀ f ∈ st.files, f.dirID ≠ 0) :
    moveDir st userID root.id p
      = (.error (.invalidOp "cannot move root directory"), st) ∧
    deleteDirRecursive st userID root.id b
      = (.error (.invalidOp "cannot delete root directory"), st) ∧
    (renameDir st userID root.id name).1 = .ok () ∧
    (renameDir st userID root.id name).2.dirs.map
        (fun d => (d.id, d.userID, d.parent))
      = st.dirs.map (fun d => (d.id, d.userID, d.parent)) ∧
    (renameDir st userID root.id name).2.files = st.files ∧
    ensureUser st userID = (root.id, st) := by
  have hdirName : getDirByName st userID 0 name = .error .noRows := by
    rw [getDirByName, List.find?_eq_none.mpr]
    intro d hd
    simp only [Bool.and_eq_true, decide_eq_true_eq]
    intro hp
    exact absurd hp.1.2 (hd0 d hd)
  have hfileName : getFileByName st userID 0 name = .error .noRows := by
    rw [getFileByName, List.find?_eq_none.mpr]
    intro f hf
    simp only [Bool.and_eq_true, decide_eq_true_eq]
    intro hp
    exact absurd hp.1.2 (hf0 f hf)
  have havail : ensureNameAvailable st userID 0 name root.id 0 = .ok () := by
    rw [ensureNameAvailable, hdirName, hfileName]
  have hmem : root ∈ st.dirs := List.mem_of_find?_eq_some hfindById
  have hpred := List.find?_some hfindById
  have hany : st.dirs.any (fun d => d.id = root.id && d.userID = userID)
      = true :=
    List.any_eq_true.mpr ⟨root, hmem, hpred⟩
  have hrename : renameDir st userID root.id name =
      (.ok (), { st with dirs := st.dirs.map (fun d =>
        if d.id = root.id && d.userID = userID then { d with name := name }
        else d) }) := by
    simp only [renameDir, getDirByID, hfindById, hpar, Option.getD_none,
      havail, hany, if_true]
  refine ⟨?_, ?_, ?_, ?_, ?_, ?_⟩
  · rw [moveDir, getRootDirID, hfindRoot]
    simp only [eq_self_iff_true, if_true]
  · rw [deleteDirRecursive, getRootDirID, hfindRoot]
    simp only [eq_self_iff_true, if_true]
  · rw [hrename]
  · rw [hrename]
    simp only [List.map_map]
    refine List.map_congr_left (fun d _ => ?_)
    by_cases h : (d.id = root.id && d.userID = userID) = true
    · simp only [Function.comp_apply, if_pos h]
    · simp only [Function.comp_apply, if_neg h]
  · rw [hrename]
  · rw [ensureUser, hfindRoot]

/-- Witness for the amended C4 on the one-root store: moving, deleting and
renaming directory 1 behave as the theorem states. -/
theorem root_protection_witness :
    moveDir rootOnlyStore 1 1 2
      = (.error (.invalidOp "cannot move root directory"), rootOnlyStore) ∧
    deleteDirRecursive rootOnlyStore 1 1 false
      = (.error (.invalidOp "cannot delete root directory"), rootOnlyStore) ∧
    (renameDir rootOnlyStore 1 1 "x").1 = .ok () := by
  have h := root_protection rootOnlyStore 1
    { id := 1, userID := 1, parent := none, name := "/" } 2 "x" false
    rfl rfl rfl (by decide) (by decide)
  exact ⟨h.1, h.2.1, h.2.2.1⟩

/-! ## Claim C9 — directory enumeration order -/

theorem bytesLe_total (a b : List Nat) :
    bytesLe a b = true ∨ bytesLe b a = true := by
  induction a generalizing b with
  | nil => exact .inl rfl
  | cons x xs ih =>
      cases b with
      | nil => exact .inr rfl
      | cons y ys =>
          rcases Nat.lt_trichotomy x y with hxy | hxy | hxy
          · exact .inl (by simp [bytesLe, hxy])
          · rcases ih ys with h | h
            · exact .inl (by simp [bytesLe, hxy, h])
            · exact .inr (by simp [bytesLe, hxy, h])
          · exact .inr (by simp [bytesLe, hxy])

theorem bytesLe_trans {a b c : List Nat} (h1 : bytesLe a b = true)
    (h2 : bytesLe b c = true) : bytesLe a c = true := by
  induction a generalizing b c with
  | nil => rfl
  | cons x xs ih =>
      cases b with
      | nil => exact absurd h1 (by simp [bytesLe])
      | cons y ys =>
          cases c with
          | nil => exact absurd h2 (by simp [bytesLe])
          | cons z zs =>
              have hxy : x < y ∨ (x = y ∧ bytesLe xs ys = true) := by
                by_cases hlt : x < y
                · exact .inl hlt
                · by_cases heq : x = y
                  · exact .inr ⟨heq, by simpa [bytesLe, hlt, heq] using h1⟩
                  · simp [bytesLe, hlt, heq] at h1
              have hyz : y < z ∨ (y = z ∧ bytesLe ys zs = true) := by
                by_cases hlt : y < z
                · exact .inl hlt
                · by_cases heq : y = z
                  · exact .inr ⟨heq, by simpa [bytesLe, hlt, heq] using h2⟩
                  · simp [bytesLe, hlt, heq] at h2
              rcases hxy with hxy | ⟨hxy, hxs⟩
              · rcases hyz with hyz | ⟨hyz, hys⟩
                · simp [bytesLe, show x < z by omega]
                · simp [bytesLe, show x < z by omega]
              · rcases hyz with hyz | ⟨hyz, hys⟩
                · simp [bytesLe, show x < z by omega]
                · have hxz : x = z := by omega
                  subst hxz
                  simp [bytesLe, Nat.lt_irrefl]
                  exact ih hxs hys

theorem nameLe_total (a b : String) : nameLe a b = true ∨ nameLe b a = true :=
  bytesLe_total _ _

theorem nameLe_trans {a b c : String} (h1 : nameLe a b = true)
    (h2 : nameLe b c = true) : nameLe a c = true :=
  bytesLe_trans h1 h2

theorem mem_insertByName {α : Type} (key : α → String) (x a : α)
    (l : List α) : a ∈ insertByName key x l ↔ a = x ∨ a ∈ l := by
  induction l with
  | nil => simp [insertByName]
  | cons y ys ih =>
      simp only [insertByName]
      split
      · simp [List.mem_cons]
      · simp only [List.mem_cons, ih]
        tauto

theorem insertByName_perm {α : Type} (key : α → String) (x : α)
    (l : List α) : (insertByName key x l).Perm (x :: l) := by
  induction l with
  | nil => exact List.Perm.refl _
  | cons y ys ih =>
      simp only [insertByName]
      split
      · exact List.Perm.refl _
      · exact (ih.cons y).trans (List.Perm.swap x y ys)

theorem insertByName_sorted {α : Type} (key : α → String) (x : α)
    (l : List α) (h : l.Sorted (fun a b => nameLe (key a) (key b) = true)) :
    (insertByName key x l).Sorted (fun a b => nameLe (key a) (key b) = true) := by
  induction l with
  | nil => simp [insertByName, List.Sorted]
  | cons y ys ih =>
      rcases List.sorted_cons.mp h with ⟨hy, hys⟩
      simp only [insertByName]
      split
      · rename_i hle
        refine List.sorted_cons.mpr ⟨?_, h⟩
        intro b hb
        rcases List.mem_cons.mp hb with hb | hb
        · exact hb ▸ hle
        · exact nameLe_trans hle (hy b hb)
      · rename_i hle
        have hyx : nameLe (key y) (key x) = true := by
          rcases nameLe_total (key x) (key y) with h' | h'
          · exact absurd h' hle
          · exact h'
        refine List.sorted_cons.mpr ⟨?_, ih hys⟩
        intro b hb
        rcases (mem_insertByName key x b ys).mp hb with hb | hb
        · exact hb ▸ hyx
        · exact hy b hb

theorem sortByName_perm {α : Type} (key : α → String) (l : List α) :
    (sortByName key l).Perm l := by
  induction l with
  | nil => exact List.Perm.refl _
  | cons x xs ih =>
      exact (insertByName_perm key x (sortByName key xs)).trans (ih.cons x)

theorem sortByName_sorted {α : Type} (key : α → String) (l : List α) :
    (sortByName key l).Sorted (fun a b => nameLe (key a) (key b) = true) := by
  induction l with
  | nil => simp [sortByName, List.Sorted]
  | cons x xs ih => exact insertByName_sorted key x (sortByName key xs) ih

/-- Claim C9 counterexample: on a directory holding a child directory named
`"z"` and a child file named `"a"`, the merged WebDAV listing is
`[z (dir), a (file)]` — the child directories come first, so the merged
listing is not in a single lexicographic name order across both kinds. -/
theorem readdir_order_counterexample :
    readdirAll listingStore 1 1 =
      [{ name := "z", size := 0, isDir := true },
       { name := "a", size := 1, isDir := false }] ∧
    ¬ ((readdirAll listingStore 1 1).map (fun i => i.name)).Sorted
        (fun a b => nameLe a b = true) := by
  constructor
  · rfl
  · decide

/-- Claim C9 (amended): the WebDAV directory enumeration merges child
directories and files into one listing of stat-like records, with all
child directories first in the Tree Store's lexicographic name order,
followed by all child files in that order — not one single name order
across both kinds. -/
theorem readdir_dirs_then_files (st : Store) (userID dirID : Nat) :
    readdirAll st userID dirID =
      (listDirs st userID dirID).map dirInfo
        ++ (listFiles st userID dirID).map fileInfo ∧
    (listDirs st userID dirID).Sorted (fun a b => nameLe a.name b.name = true) ∧
    (listFiles st userID dirID).Sorted (fun a b => nameLe a.name b.name = true) ∧
    (listDirs st userID dirID).Perm
      (st.dirs.filter (fun d => d.userID = userID && d.parent = some dirID)) ∧
    (listFiles st userID dirID).Perm
      (st.files.filter (fun f => f.userID = userID && f.dirID = dirID)) :=
  ⟨rfl, sortByName_sorted _ _, sortByName_sorted _ _,
   sortByName_perm _ _, sortByName_perm _ _⟩

/-! ## Claim C3 — name conflicts -/

theorem getDirByName_ok {st : Store} {u p : Nat} {n : String} {c : Directory}
    (h : getDirByName st u p n = .ok c) :
    c ∈ st.dirs ∧ c.userID = u ∧ c.parent = some p ∧ c.name = n := by
  rw [getDirByName] at h
  cases hfind : st.dirs.find?
      (fun d => d.userID = u && d.parent = some p && d.name = n) with
  | none => rw [hfind] at h; exact absurd h (by simp)
  | some d0 =>
      rw [hfind] at h
      have hdc : d0 = c := by simpa using h
      subst hdc
      have hmem := List.mem_of_find?_eq_some hfind
      have hpred := List.find?_some hfind
      simp only [Bool.and_eq_true, decide_eq_true_eq] at hpred
      exact ⟨hmem, hpred.1.1, hpred.1.2, hpred.2⟩

theorem getFileByName_ok {st : Store} {u p : Nat} {n : String} {c : File}
    (h : getFileByName st u p n = .ok c) :
    c ∈ st.files ∧ c.userID = u ∧ c.dirID = p ∧ c.name = n := by
  rw [getFileByName] at h
  cases hfind : st.files.find?
      (fun f => f.userID = u && f.dirID = p && f.name = n) with
  | none => rw [hfind] at h; exact absurd h (by simp)
  | some f0 =>
      rw [hfind] at h
      have hfc : f0 = c := by simpa using h
      subst hfc
      have hmem := List.mem_of_find?_eq_some hfind
      have hpred := List.find?_some hfind
      simp only [Bool.and_eq_true, decide_eq_true_eq] at hpred
      exact ⟨hmem, hpred.1.1, hpred.1.2, hpred.2⟩

theorem getDirByName_ok_of_mem {st : Store} {u p : Nat} {n : String}
    {d : Directory} (hmem : d ∈ st.dirs) (hu : d.userID = u)
    (hp : d.parent = some p) (hn : d.name = n) :
    ∃ c, getDirByName st u p n = .ok c ∧ c ∈ st.dirs ∧ c.userID = u ∧
      c.parent = some p ∧ c.name = n := by
  have hsome : (st.dirs.find?
      (fun d => d.userID = u && d.parent = some p && d.name = n)).isSome := by
    rw [List.find?_isSome]
    exact ⟨d, hmem, by simp [hu, hp, hn]⟩
  obtain ⟨c, hc⟩ := Option.isSome_iff_exists.mp hsome
  have hok : getDirByName st u p n = .ok c := by rw [getDirByName, hc]
  exact ⟨c, hok, getDirByName_ok hok⟩

theorem getFileByName_ok_of_mem {st : Store} {u p : Nat} {n : String}
    {f : File} (hmem : f ∈ st.files) (hu : f.userID = u)
    (hp : f.dirID = p) (hn : f.name = n) :
    ∃ c, getFileByName st u p n = .ok c ∧ c ∈ st.files ∧ c.userID = u ∧
      c.dirID = p ∧ c.name = n := by
  have hsome : (st.files.find?
      (fun f => f.userID = u && f.dirID = p && f.name = n)).isSome := by
    rw [List.find?_isSome]
    exact ⟨f, hmem, by simp [hu, hp, hn]⟩
  obtain ⟨c, hc⟩ := Option.isSome_iff_exists.mp hsome
  have hok : getFileByName st u p n = .ok c := by rw [getFileByName, hc]
  exact ⟨c, hok, getFileByName_ok hok⟩

/-- Core of claim C3: whenever a sibling directory or file (other than the
row excluded from the check) already owns the target name, the shared name
check reports the conflict — provided names are unique per parent, so that
the row the `LIMIT 1` lookup returns is the conflicting one. -/
theorem ensureNameAvailable_conflict (st : Store) (userID parentID : Nat)
    (name : String) (exD exF : Nat)
    (hud : UniqueDirNames st) (huf : UniqueFileNames st)
    (hc : ConflictingDir st userID parentID name exD ∨
          ConflictingFile st userID parentID name exF) :
    ensureNameAvailable st userID parentID name exD exF
      = .error .nameConflict := by
  rcases hc with ⟨d, hdmem, hdu, hdp, hdn, hdex⟩ | ⟨f, hfmem, hfu, hfd, hfn, hfex⟩
  · obtain ⟨c, hok, hcmem, hcu, hcp, hcn⟩ :=
      getDirByName_ok_of_mem hdmem hdu hdp hdn
    have hcd : c = d :=
      hud c hcmem d hdmem (by rw [hcu, hdu]) (by rw [hcp, hdp])
        (by rw [hcn, hdn])
    have hbr : (exD = 0 || c.id != exD) = true := by
      rcases hdex with h0 | hne
      · simp [h0]
      · simp [hcd, hne]
    simp only [ensureNameAvailable, hok, hbr, eq_self_iff_true, if_true]
  · obtain ⟨c, hok, hcmem, hcu, hcd, hcn⟩ :=
      getFileByName_ok_of_mem hfmem hfu hfd hfn
    have hcf : c = f :=
      huf c hcmem f hfmem (by rw [hcu, hfu]) (by rw [hcd, hfd])
        (by rw [hcn, hfn])
    have hbrF : (exF = 0 || c.id != exF) = true := by
      rcases hfex with h0 | hne
      · simp [h0]
      · simp [hcf, hne]
    cases hdir : getDirByName st userID parentID name with
    | error e =>
        simp only [ensureNameAvailable, hdir, hok, hbrF, eq_self_iff_true,
          if_true]
    | ok c' =>
        by_cases hbrD : (exD = 0 || c'.id != exD) = true
        · simp only [ensureNameAvailable, hdir, hbrD, eq_self_iff_true,
            if_true]
        · have hbrD' : (decide (exD = 0) || c'.id != exD) = false :=
            Bool.eq_false_iff.mpr hbrD
          simp only [ensureNameAvailable, hdir, hbrD', Bool.false_eq_true,
            if_false, hok, hbrF, eq_self_iff_true, if_true]

/-- Claim C3: creating, renaming or moving a directory or file into a
parent where some sibling (directory or file, compared case-sensitively)
already has the target name fails with the name-conflict error and leaves
the stored tree unchanged.  For `MoveDir` the structural preconditions
(not the root, not into itself or a descendant) are assumed, since those
violations are rejected earlier with their own errors. -/
theorem name_conflicts_rejected (st : Store)
    (hud : UniqueDirNames st) (huf : UniqueFileNames st) :
    (∀ userID parentID name,
      ConflictingDir st userID parentID name 0 ∨
        ConflictingFile st userID parentID name 0 →
      createDir st userID parentID name = (.error .nameConflict, st)) ∧
    (∀ userID dirID name r u sz mt,
      ConflictingDir st userID dirID name 0 ∨
        ConflictingFile st userID dirID name 0 →
      createFile st userID dirID name r u sz mt
        = (.error .nameConflict, st)) ∧
    (∀ userID name (dir : Directory) pid,
      st.dirs.find? (fun d => d.id = dir.id && d.userID = userID) = some dir →
      dir.parent = some pid →
      ConflictingDir st userID pid name dir.id ∨
        ConflictingFile st userID pid name 0 →
      renameDir st userID dir.id name = (.error .nameConflict, st)) ∧
    (∀ userID name (file : File),
      st.files.find? (fun f => f.id = file.id && f.userID = userID)
        = some file →
      ConflictingDir st userID file.dirID name 0 ∨
        ConflictingFile st userID file.dirID name file.id →
      renameFile st userID file.id name = (.error .nameConflict, st)) ∧
    (∀ userID newDirID (file : File),
      st.files.find? (fun f => f.id = file.id && f.userID = userID)
        = some file →
      ConflictingDir st userID newDirID file.name 0 ∨
        ConflictingFile st userID newDirID file.name file.id →
      moveFile st userID file.id newDirID = (.error .nameConflict, st)) ∧
    (∀ userID newParentID (dir : Directory) rootID,
      getRootDirID st userID = (rootID, st) →
      dir.id ≠ rootID → dir.id ≠ newParentID →
      isDescendant st userID dir.id newParentID = false →
      st.dirs.find? (fun d => d.id = dir.id && d.userID = userID) = some dir →
      ConflictingDir st userID newParentID dir.name dir.id ∨
        ConflictingFile st userID newParentID dir.name 0 →
      moveDir st userID dir.id newParentID = (.error .nameConflict, st)) := by
  refine ⟨?_, ?_, ?_, ?_, ?_, ?_⟩
  · intro userID parentID name hc
    rw [createDir, ensureNameAvailable_conflict st userID parentID name 0 0
      hud huf hc]
  · intro userID dirID name r u sz mt hc
    rw [createFile, ensureNameAvailable_conflict st userID dirID name 0 0
      hud huf hc]
  · intro userID name dir pid hfind hpid hc
    simp only [renameDir, getDirByID, hfind, hpid, Option.getD_some,
      ensureNameAvailable_conflict st userID pid name dir.id 0 hud huf hc]
  · intro userID name file hfind hc
    simp only [renameFile, getFileByID, hfind,
      ensureNameAvailable_conflict st userID file.dirID name 0 file.id
        hud huf hc]
  · intro userID newDirID file hfind hc
    simp only [moveFile, getFileByID, hfind,
      ensureNameAvailable_conflict st userID newDirID file.name 0 file.id
        hud huf hc]
  · intro userID newParentID dir rootID hroot hnr hnp hdesc hfind hc
    simp only [moveDir, hroot, if_neg hnr, if_neg hnp, hdesc,
      Bool.false_eq_true, if_false, getDirByID, hfind,
      ensureNameAvailable_conflict st userID newParentID dir.name dir.id 0
        hud huf hc]

/-- Witness for C3 on the listing store: creating a directory named `"a"`
under the root fails with the name conflict raised by the file `"a"`, and
the state is unchanged. -/
theorem name_conflicts_rejected_witness :
    createDir listingStore 1 1 "a" = (.error .nameConflict, listingStore) :=
  (name_conflicts_rejected listingStore
      (by unfold UniqueDirNames; decide) (by unfold UniqueFileNames; decide)).1
    1 1 "a" (by unfold ConflictingDir ConflictingFile; decide)

/-! ## Claim C5 — moving a directory into its own subtree -/

theorem mem_subtreeLevels_of_mem (dirs : List Directory) (frontier : List Nat)
    (a n : Nat) (h : a ∈ frontier) (hn : 0 < n) :
    a ∈ subtreeLevels dirs n frontier := by
  cases n with
  | zero => omega
  | succ m =>
      simp only [subtreeLevels, List.mem_append]
      exact .inl h

theorem mem_childIDs {dirs : List Directory} {frontier : List Nat}
    {d : Directory} {a : Nat} (hd : d ∈ dirs) (hp : d.parent = some a)
    (ha : a ∈ frontier) : d.id ∈ childIDs dirs frontier := by
  simp only [childIDs, List.mem_map]
  refine ⟨d, List.mem_filter.mpr ⟨hd, ?_⟩, rfl⟩
  simp [hp, ha]

theorem descDepth_mem_subtreeLevels {dirs : List Directory} {a c k : Nat}
    (h : DescDepth dirs a c k) :
    ∀ frontier n, a ∈ frontier → k < n → c ∈ subtreeLevels dirs n frontier := by
  induction h with
  | child hd hp =>
      intro frontier n ha hn
      cases n with
      | zero => omega
      | succ m =>
          simp only [subtreeLevels, List.mem_append]
          exact .inr (mem_subtreeLevels_of_mem _ _ _ _
            (mem_childIDs hd hp ha) (by omega))
  | cons hd hp hdesc ih =>
      intro frontier n ha hn
      cases n with
      | zero => omega
      | succ m =>
          simp only [subtreeLevels, List.mem_append]
          exact .inr (ih (childIDs dirs frontier) m
            (mem_childIDs hd hp ha) (by omega))

theorem descDepth_lvl {dirs : List Directory} {lvl : Nat → Nat}
    (hstep : ∀ d ∈ dirs, ∀ q, d.parent = some q → lvl d.id = lvl q + 1)
    {a c k : Nat} (h : DescDepth dirs a c k) : lvl c = lvl a + k := by
  induction h with
  | child hd hp => exact hstep _ hd _ hp
  | cons hd hp hdesc ih =>
      have := hstep _ hd _ hp
      omega

theorem descDepth_target {dirs : List Directory} {a c k : Nat}
    (h : DescDepth dirs a c k) : ∃ d ∈ dirs, d.id = c := by
  induction h with
  | child hd hp => exact ⟨_, hd, rfl⟩
  | cons hd hp hdesc ih => exact ih

theorem descDepth_pos {dirs : List Directory} {a c k : Nat}
    (h : DescDepth dirs a c k) : 1 ≤ k := by
  cases h <;> omega

/-- On a ranked (acyclic) directory table, the CTE enumeration run for
`|dirs| + 1` rounds finds every parent-chain descendant: the chain has
length at most the table's depth bound. -/
theorem desc_isDescendant (st : Store) (userID : Nat) (dir : Directory)
    (p : Nat) (lvl : Nat → Nat) (hr : Ranked st.dirs lvl)
    (hdir : dir ∈ st.dirs) (hu : dir.userID = userID)
    (hd : Desc st.dirs dir.id p) : isDescendant st userID dir.id p = true := by
  obtain ⟨k, hk⟩ := hd
  obtain ⟨dt, hdt, hdtid⟩ := descDepth_target hk
  have hlvl := descDepth_lvl hr.parentStep hk
  have hb := hr.bound dt hdt
  rw [hdtid] at hb
  have hkb : k < st.dirs.length + 1 := by omega
  have hseed : dir.id ∈ (st.dirs.filter
      (fun d => d.id = dir.id && d.userID = userID)).map (fun d => d.id) := by
    simp only [List.mem_map]
    exact ⟨dir, List.mem_filter.mpr ⟨hdir, by simp [hu]⟩, rfl⟩
  have hmem := descDepth_mem_subtreeLevels hk _ _ hseed hkb
  rw [isDescendant, subtreeIDs]
  exact List.elem_eq_true_of_mem hmem

/-- Claim C5: for every directory `d` and destination `p` where `p = d` or
`p` is a descendant of `d` at any depth (on an acyclic table with a root),
`MoveDir(d, p)` fails with a structural error and the state — in
particular `d`'s parent — is unchanged; and the descendant check is the
membership test of `p` in the enumerated subtree rooted at `d`
(`isDescendant`). -/
theorem moveDir_into_subtree_rejected (st : Store) (userID : Nat)
    (dir : Directory) (p : Nat) (lvl : Nat → Nat) (root : Directory)
    (hr : Ranked st.dirs lvl) (hdir : dir ∈ st.dirs)
    (hu : dir.userID = userID)
    (hroot : st.dirs.find? (fun d => d.userID = userID && d.parent = none)
      = some root)
    (hdp : p = dir.id ∨ Desc st.dirs dir.id p) :
    (p = dir.id ∨ isDescendant st userID dir.id p = true) ∧
    ∃ msg, moveDir st userID dir.id p = (.error (.invalidOp msg), st) := by
  have hget : getRootDirID st userID = (root.id, st) := by
    rw [getRootDirID, hroot]
  constructor
  · rcases hdp with h | h
    · exact .inl h
    · exact .inr (desc_isDescendant st userID dir p lvl hr hdir hu h)
  · by_cases hrt : dir.id = root.id
    · refine ⟨"cannot move root directory", ?_⟩
      rw [moveDir, hget]
      simp only [if_pos hrt]
    · rcases hdp with h | h
      · refine ⟨"cannot move directory into itself", ?_⟩
        rw [moveDir, hget]
        simp only [if_neg hrt, if_pos h.symm]
      · have hdesc := desc_isDescendant st userID dir p lvl hr hdir hu h
        have hne : dir.id ≠ p := by
          intro he
          obtain ⟨k, hk⟩ := h
          have h1 := descDepth_lvl hr.parentStep hk
          have h2 := descDepth_pos hk
          rw [← he] at h1
          omega
        refine ⟨"cannot move directory into its descendant", ?_⟩
        rw [moveDir, hget]
        simp only [if_neg hrt, if_neg hne, hdesc, if_true]

/-- Witness for C5 on the chain store root → `a`(2) → `b`(3): moving
directory 2 under its child 3 is rejected with the state unchanged. -/
theorem moveDir_into_subtree_rejected_witness :
    (3 = 2 ∨ isDescendant chainStore 1 2 3 = true) ∧
    ∃ msg, moveDir chainStore 1 2 3 = (.error (.invalidOp msg), chainStore) := by
  have hrk : Ranked chainStore.dirs (fun n => n - 1) := by
    constructor
    · intro d hd q hq
      fin_cases hd <;> simp_all <;> omega
    · intro d hd
      fin_cases hd <;> decide
  have hdesc : Desc chainStore.dirs 2 3 :=
    ⟨1, DescDepth.child (d := ⟨3, 1, some 2, "b"⟩) (by decide) rfl⟩
  exact moveDir_into_subtree_rejected chainStore 1
    { id := 2, userID := 1, parent := some 1, name := "a" } 3
    (fun n => n - 1) { id := 1, userID := 1, parent := none, name := "/" }
    hrk (by decide) rfl rfl (.inr hdesc)

/-! ## Claim C6 — recursive directory deletion -/

/-- Claim C6 counterexample: `DeleteDirRecursive` issues two separate
top-level statements with no enclosing transaction.  On the store
root → `docs`(2) ∋ file 3, a persistence fault in the second statement
(directory deletion) leaves a state where the subtree's file rows are
already gone but every directory row remains — so the deletion is not
"all of the subtree's file and directory rows are removed, or on failure
none are". -/
theorem deleteDir_not_atomic_counterexample :
    (deleteDirRecursive subtreeStore 1 2 true).1 = .error .storage ∧
    (deleteDirRecursive subtreeStore 1 2 true).2.files = [] ∧
    subtreeStore.files ≠ [] ∧
    (deleteDirRecursive subtreeStore 1 2 true).2.dirs = subtreeStore.dirs :=
  ⟨rfl, rfl, by decide, rfl⟩

/-- Every node of the parent-chain subtree of `dir` (the directory itself
and its descendants at any depth) appears in the CTE enumeration. -/
theorem mem_subtreeIDs_of (st : Store) (userID : Nat) (dir : Directory)
    (lvl : Nat → Nat) (hr : Ranked st.dirs lvl) (hdir : dir ∈ st.dirs)
    (hu : dir.userID = userID) (x : Nat)
    (h : x = dir.id ∨ Desc st.dirs dir.id x) :
    x ∈ subtreeIDs st userID dir.id := by
  have hseed : dir.id ∈ (st.dirs.filter
      (fun d => d.id = dir.id && d.userID = userID)).map (fun d => d.id) := by
    simp only [List.mem_map]
    exact ⟨dir, List.mem_filter.mpr ⟨hdir, by simp [hu]⟩, rfl⟩
  rcases h with rfl | h
  · exact mem_subtreeLevels_of_mem _ _ _ _ hseed (by omega)
  · obtain ⟨k, hk⟩ := h
    obtain ⟨dt, hdt, hdtid⟩ := descDepth_target hk
    have hlvl := descDepth_lvl hr.parentStep hk
    have hb := hr.bound dt hdt
    rw [hdtid] at hb
    exact descDepth_mem_subtreeLevels hk _ _ hseed (by omega)

/-- Claim C6 (amended): for a non-root directory `d` on an acyclic table,
`DeleteDirRecursive(d)` succeeds and removes every file and directory of
the subtree rooted at `d` — but through two sequential statements (the
subtree's files first, then its directories), not one atomic transaction;
the counterexample shows a fault between them leaves the files deleted and
the directories in place.  After success, lookups of `d` or of any of its
descendants, and of any file stored in them, return not-found. -/
theorem deleteDirRecursive_removes_subtree (st : Store) (userID : Nat)
    (dir : Directory) (lvl : Nat → Nat) (root : Directory)
    (hr : Ranked st.dirs lvl) (hdir : dir ∈ st.dirs)
    (hu : dir.userID = userID)
    (hroot : st.dirs.find? (fun d => d.userID = userID && d.parent = none)
      = some root)
    (hnr : dir.id ≠ root.id)
    (hfids : (st.files.map (fun f => f.id)).Nodup) :
    ∃ st', deleteDirRecursive st userID dir.id false = (.ok (), st') ∧
      (∀ x u2, (x = dir.id ∨ Desc st.dirs dir.id x) →
        getDirByID st' u2 x = .error .noRows) ∧
      (∀ f ∈ st.files, ∀ u2, (f.dirID = dir.id ∨ Desc st.dirs dir.id f.dirID) →
        getFileByID st' u2 f.id = .error .noRows) := by
  have hget : getRootDirID st userID = (root.id, st) := by
    rw [getRootDirID, hroot]
  refine ⟨{ st with
      files := st.files.filter
        (fun f => !(subtreeIDs st userID dir.id).contains f.dirID),
      dirs := st.dirs.filter
        (fun d => !(subtreeIDs st userID dir.id).contains d.id) },
    ?_, ?_, ?_⟩
  · rw [deleteDirRecursive, hget]
    simp only [if_neg hnr, Bool.false_eq_true, if_false]
  · intro x u2 hx
    have hxmem := mem_subtreeIDs_of st userID dir lvl hr hdir hu x hx
    rw [getDirByID, List.find?_eq_none.mpr]
    intro d hdmem
    have hdf := List.mem_filter.mp hdmem
    simp only [Bool.not_eq_true'] at hdf
    simp only [Bool.and_eq_true, decide_eq_true_eq]
    intro hp
    have hcontains := hdf.2
    have htrue : (subtreeIDs st userID dir.id).contains x = true :=
      List.elem_eq_true_of_mem hxmem
    rw [hp.1, htrue] at hcontains
    simp at hcontains
  · intro f hf u2 hfdir
    have hxmem := mem_subtreeIDs_of st userID dir lvl hr hdir hu f.dirID hfdir
    rw [getFileByID, List.find?_eq_none.mpr]
    intro g hgmem
    have hgf := List.mem_filter.mp hgmem
    simp only [Bool.not_eq_true'] at hgf
    simp only [Bool.and_eq_true, decide_eq_true_eq]
    intro hp
    have hgeq : g = f :=
      List.inj_on_of_nodup_map hfids hgf.1 hf hp.1
    have hcontains := hgf.2
    have htrue : (subtreeIDs st userID dir.id).contains f.dirID = true :=
      List.elem_eq_true_of_mem hxmem
    rw [hgeq, htrue] at hcontains
    simp at hcontains

/-- Witness for the amended C6 on the store root → `docs`(2) ∋ file 3:
deleting directory 2 succeeds and its directory and file vanish. -/
theorem deleteDirRecursive_removes_subtree_witness :
    ∃ st', deleteDirRecursive subtreeStore 1 2 false = (.ok (), st') ∧
      (∀ x u2, (x = 2 ∨ Desc subtreeStore.dirs 2 x) →
        getDirByID st' u2 x = .error .noRows) ∧
      (∀ f ∈ subtreeStore.files, ∀ u2,
        (f.dirID = 2 ∨ Desc subtreeStore.dirs 2 f.dirID) →
        getFileByID st' u2 f.id = .error .noRows) := by
  have hrk : Ranked subtreeStore.dirs (fun n => n - 1) := by
    constructor
    · intro d hd q hq
      fin_cases hd <;> simp_all <;> omega
    · intro d hd
      fin_cases hd <;> decide
  exact deleteDirRecursive_removes_subtree subtreeStore 1
    ⟨2, 1, some 1, "docs"⟩ (fun n => n - 1) ⟨1, 1, none, "/"⟩
    hrk (by decide) rfl rfl (by decide) (by decide)

/-! ## Claims C1, C7, C10 — the upload pipeline -/

theorem uploadWriteAux_nil (M : Nat) (hM : 0 < M) (cur : List Byte)
    (parts : List (List Byte)) :
    uploadWriteAux M hM cur parts [] = (parts, cur) := by
  rw [uploadWriteAux]

theorem splitChunks_lt (M : Nat) (hM : 0 < M) (s : List Byte)
    (h : s.length < M) : splitChunks M hM s = ([], s) := by
  rw [splitChunks, dif_pos h]

theorem splitChunks_ge (M : Nat) (hM : 0 < M) (s : List Byte)
    (h : ¬ s.length < M) :
    splitChunks M hM s =
      (s.take M :: (splitChunks M hM (s.drop M)).1,
       (splitChunks M hM (s.drop M)).2) := by
  rw [splitChunks, dif_neg h]

/-- The write loop, started on an open part holding fewer than `M` bytes,
finishes exactly the maximal full `M`-byte chunks of `cur ++ p` and keeps
the remainder open. -/
theorem uploadWriteAux_spec (M : Nat) (hM : 0 < M) :
    ∀ (n : Nat) (p cur : List Byte) (parts : List (List Byte)),
      p.length ≤ n → cur.length < M →
      uploadWriteAux M hM cur parts p =
        (parts ++ (splitChunks M hM (cur ++ p)).1,
         (splitChunks M hM (cur ++ p)).2) := by
  intro n
  induction n with
  | zero =>
      intro p cur parts hlen hcur
      have hp : p = [] := List.length_eq_zero.mp (by omega)
      subst hp
      rw [uploadWriteAux_nil, List.append_nil,
        splitChunks_lt M hM cur hcur, List.append_nil]
  | succ n ih =>
      intro p cur parts hlen hcur
      cases p with
      | nil =>
          rw [uploadWriteAux_nil, List.append_nil,
            splitChunks_lt M hM cur hcur, List.append_nil]
      | cons b rest =>
          rw [uploadWriteAux, dif_neg (by omega : ¬ M ≤ cur.length)]
          have hbl : 1 ≤ (b :: rest).length := by simp
          have htw1 : 1 ≤ writeChunk M cur (b :: rest) := by
            simp only [writeChunk, List.length_cons]
            omega
          have htw2 : writeChunk M cur (b :: rest) ≤ M - cur.length := by
            simp only [writeChunk]
            omega
          have htw3 : writeChunk M cur (b :: rest) ≤ (b :: rest).length := by
            simp only [writeChunk]
            omega
          have hlen' :
              ((b :: rest).drop (writeChunk M cur (b :: rest))).length ≤ n := by
            simp only [List.length_drop]
            have := hlen
            simp only [List.length_cons] at this ⊢
            omega
          by_cases h2 : M ≤ cur.length + writeChunk M cur (b :: rest)
          · rw [if_pos h2, ih _ _ _ hlen' (by simpa using hM)]
            have htw : writeChunk M cur (b :: rest) = M - cur.length := by omega
            have hlenc : ¬ (cur ++ b :: rest).length < M := by
              simp only [List.length_append]
              omega
            rw [splitChunks_ge M hM _ hlenc]
            have htake : (cur ++ b :: rest).take M
                = cur ++ (b :: rest).take (writeChunk M cur (b :: rest)) := by
              rw [List.take_append_eq_append_take,
                List.take_of_length_le (by omega : cur.length ≤ M), htw]
            have hdrop : (cur ++ b :: rest).drop M
                = (b :: rest).drop (writeChunk M cur (b :: rest)) := by
              rw [List.drop_append_eq_append_drop,
                List.drop_eq_nil_of_le (by omega : cur.length ≤ M),
                List.nil_append, htw]
            rw [htake, hdrop]
            simp [List.append_assoc]
          · rw [if_neg h2]
            have htw : writeChunk M cur (b :: rest) = (b :: rest).length := by
              simp only [writeChunk] at htw1 htw2 htw3 h2 ⊢
              omega
            rw [htw, List.take_length, List.drop_length, uploadWriteAux_nil]
            have hlt : (cur ++ b :: rest).length < M := by
              simp only [List.length_append]
              simp only [htw] at h2
              omega
            rw [splitChunks_lt M hM _ hlt]
            simp

/-- Flushing the final open chunk after splitting yields exactly the
`M`-sized chunk decomposition of a nonempty stream. -/
theorem splitChunks_flush (M : Nat) (hM : 0 < M) :
    ∀ (n : Nat) (s : List Byte), s.length ≤ n → s ≠ [] →
      (splitChunks M hM s).1 ++
        (if (splitChunks M hM s).2.isEmpty then [] else [(splitChunks M hM s).2])
      = chunksOf M hM s := by
  intro n
  induction n with
  | zero =>
      intro s hlen hne
      exact absurd (List.length_eq_zero.mp (by omega)) hne
  | succ n ih =>
      intro s hlen hne
      by_cases h : s.length < M
      · rw [splitChunks_lt M hM s h, chunksOf, dif_pos (by omega)]
        have : s.isEmpty = false := by
          cases s with
          | nil => exact absurd rfl hne
          | cons a t => rfl
        simp [this]
      · by_cases heq : s.length = M
        · rw [splitChunks_ge M hM s h,
            List.drop_eq_nil_of_le (by omega : s.length ≤ M),
            splitChunks_lt M hM [] (by simpa using hM),
            chunksOf, dif_pos (by omega),
            List.take_of_length_le (by omega : s.length ≤ M)]
          simp
        · rw [splitChunks_ge M hM s h, chunksOf, dif_neg (by omega : ¬ s.length ≤ M)]
          simp only [List.cons_append]
          congr 1
          apply ih
          · simp only [List.length_drop]
            omega
          · intro hnil
            have := congrArg List.length hnil
            simp only [List.length_drop, List.length_nil] at this
            omega

theorem chunksOf_flatten (M : Nat) (hM : 0 < M) :
    ∀ (n : Nat) (s : List Byte), s.length ≤ n →
      (chunksOf M hM s).flatten = s := by
  intro n
  induction n with
  | zero =>
      intro s hlen
      have hs : s = [] := List.length_eq_zero.mp (by omega)
      subst hs
      rw [chunksOf, dif_pos (by omega)]
      simp
  | succ n ih =>
      intro s hlen
      by_cases h : s.length ≤ M
      · rw [chunksOf, dif_pos h]
        simp
      · rw [chunksOf, dif_neg h]
        simp only [List.flatten_cons]
        rw [ih _ (by simp only [List.length_drop]; omega)]
        exact List.take_append_drop M s

theorem chunksOf_length (M : Nat) (hM : 0 < M) :
    ∀ (n : Nat) (s : List Byte), s.length ≤ n → s ≠ [] →
      (chunksOf M hM s).length = (s.length + M - 1) / M := by
  intro n
  induction n with
  | zero =>
      intro s hlen hne
      exact absurd (List.length_eq_zero.mp (by omega)) hne
  | succ n ih =>
      intro s hlen hne
      have hpos : 1 ≤ s.length := by
        cases s with
        | nil => exact absurd rfl hne
        | cons a t => simp
      by_cases h : s.length ≤ M
      · rw [chunksOf, dif_pos h]
        have hd : (s.length + M - 1) / M = 1 :=
          Nat.div_eq_of_lt_le (by omega) (by omega)
        simp [hd]
      · rw [chunksOf, dif_neg h]
        simp only [List.length_cons]
        rw [ih _ (by simp only [List.length_drop]; omega)
          (by
            intro hnil
            have := congrArg List.length hnil
            simp only [List.length_drop, List.length_nil] at this
            omega)]
        have h1 : s.length + M - 1 = (s.length - 1) + M := by omega
        have h2 : (s.drop M).length + M - 1 = (s.length - 1 - M) + M := by
          simp only [List.length_drop]
          omega
        rw [h1, h2, Nat.add_div_right _ hM, Nat.add_div_right _ hM]
        have h3 : s.length - 1 = (s.length - 1 - M) + M := by omega
        conv_rhs => rw [h3, Nat.add_div_right _ hM]

theorem uploadWrite_fresh (M : Nat) (hM : 0 < M) (p : List Byte) :
    uploadWrite (freshUpload M hM) p =
      { maxPartSize := M, maxPos := hM, cur := (splitChunks M hM p).2,
        parts := (splitChunks M hM p).1, total := p.length } := by
  have h := uploadWriteAux_spec M hM p.length p [] [] (le_refl _)
    (by simpa using hM)
  simp only [List.nil_append] at h
  simp [uploadWrite, freshUpload, h]

theorem closeParts_write (M : Nat) (hM : 0 < M) (p : List Byte)
    (hp : p ≠ []) :
    closeParts (uploadWrite (freshUpload M hM) p) = chunksOf M hM p := by
  rw [uploadWrite_fresh, closeParts]
  exact splitChunks_flush M hM p.length p (le_refl _) hp

theorem partInputs_refs (parts : List (List Byte)) :
    (partInputs parts).map (fun q => q.telegramFileID) = parts := by
  rw [partInputs, List.map_map]
  exact List.enum_map_snd parts

theorem partInputs_idx (parts : List (List Byte)) :
    (partInputs parts).map (fun q => q.partIndex)
      = List.range parts.length := by
  rw [partInputs, List.map_map]
  exact List.enum_map_fst parts

theorem partInputs_length (parts : List (List Byte)) :
    (partInputs parts).length = parts.length := by
  simp [partInputs]

theorem insertFilePartsTx_refs (fid : Nat) (parts : List FilePartInput) :
    (insertFilePartsTx fid parts).map (fun q => q.telegramFileID)
      = parts.map (fun q => q.telegramFileID) := by
  rw [insertFilePartsTx, List.map_map]
  rfl

theorem insertFilePartsTx_length (fid : Nat) (parts : List FilePartInput) :
    (insertFilePartsTx fid parts).length = parts.length := by
  simp [insertFilePartsTx]

/-- Claim C1: closing an upload stream of `S = len p` bytes (`S > 0`)
written with maximum part size `M` into a fresh file records the
`M`-chunking of the stream: exactly `⌈S/M⌉` part rows when `S > M`, and
when `S ≤ M` exactly one new file row whose blob reference is the whole
stream (a direct reference) and zero part rows; the recorded parts carry
indices `0, 1, …` in order and concatenating their referenced bytes in
that order reproduces `p` exactly. -/
theorem upload_roundtrip (M : Nat) (hM : 0 < M) (p : List Byte) (hp : p ≠ [])
    (st : Store) (userID dirID : Nat) (name mimeType : String)
    (havail : ensureNameAvailable st userID dirID name 0 0 = .ok ()) :
    ∃ st' f,
      closeUpload (uploadWrite (freshUpload M hM) p) st userID dirID name
        none mimeType = (.ok (), st') ∧
      st'.files = st.files ++ [f] ∧
      f.id = st.nextID ∧ f.userID = userID ∧ f.dirID = dirID ∧
      f.name = name ∧ f.size = p.length ∧
      ((partInputs (chunksOf M hM p)).map
        (fun q => q.telegramFileID)).flatten = p ∧
      (partInputs (chunksOf M hM p)).map (fun q => q.partIndex)
        = List.range (chunksOf M hM p).length ∧
      (p.length ≤ M → f.fileID = p ∧ st'.fileParts = st.fileParts) ∧
      (M < p.length →
        st'.fileParts = st.fileParts ++
          insertFilePartsTx st.nextID (partInputs (chunksOf M hM p)) ∧
        (insertFilePartsTx st.nextID (partInputs (chunksOf M hM p))).length
          = (p.length + M - 1) / M ∧
        ((insertFilePartsTx st.nextID (partInputs (chunksOf M hM p))).map
          (fun q => q.telegramFileID)).flatten = p) := by
  have hclose := closeParts_write M hM p hp
  have htotal : (uploadWrite (freshUpload M hM) p).total = p.length := by
    rw [uploadWrite_fresh]
  have hrefs : ((partInputs (chunksOf M hM p)).map
      (fun q => q.telegramFileID)).flatten = p := by
    rw [partInputs_refs]
    exact chunksOf_flatten M hM p.length p (le_refl _)
  by_cases hsm : p.length ≤ M
  · have hchunks : chunksOf M hM p = [p] := by rw [chunksOf, dif_pos hsm]
    have hpc : partInputs
        (closeParts (uploadWrite (freshUpload M hM) p))
        = [{ partIndex := 0, telegramFileID := p, fileUniqueID := p,
             size := p.length }] := by
      rw [hclose, hchunks]
      rfl
    have hstep : closeUpload (uploadWrite (freshUpload M hM) p) st userID
        dirID name none mimeType
        = (.ok (), { st with
            files := st.files ++
              [mkFileRow st userID dirID name p p p.length mimeType],
            nextID := st.nextID + 1 }) := by
      rw [closeUpload, hpc]
      simp only [List.length_cons, List.length_nil, gt_iff_lt]
      rw [if_neg (by omega)]
      rw [createFile, havail, htotal]
      rfl
    exact ⟨_, _, hstep, rfl, rfl, rfl, rfl, rfl, rfl, hrefs, partInputs_idx _,
      fun _ => ⟨rfl, rfl⟩, fun hlt => absurd hlt (by omega)⟩
  · have hceil : (chunksOf M hM p).length = (p.length + M - 1) / M :=
      chunksOf_length M hM p.length p (le_refl _) hp
    have hlen2 : 2 ≤ (chunksOf M hM p).length := by
      rw [hceil, Nat.le_div_iff_mul_le hM]
      omega
    obtain ⟨first, restP, hfr⟩ :
        ∃ a l, partInputs (chunksOf M hM p) = a :: l := by
      cases hx : partInputs (chunksOf M hM p) with
      | nil =>
          have := partInputs_length (chunksOf M hM p)
          rw [hx] at this
          simp at this
          omega
      | cons a l => exact ⟨a, l, rfl⟩
    have hpc : partInputs (closeParts (uploadWrite (freshUpload M hM) p))
        = first :: restP := by
      rw [hclose, hfr]
    have hgt : (first :: restP).length > 1 := by
      rw [← hfr, partInputs_length]
      omega
    have hstep : closeUpload (uploadWrite (freshUpload M hM) p) st userID
        dirID name none mimeType
        = (.ok (), { st with
            files := st.files ++
              [mkFileRow st userID dirID name first.telegramFileID
                first.fileUniqueID p.length mimeType],
            fileParts := st.fileParts ++
              insertFilePartsTx st.nextID (first :: restP),
            nextID := st.nextID + 1 }) := by
      rw [closeUpload, hpc]
      simp only [eq_true hgt, if_true]
      rw [createFileWithParts, havail, htotal]
      simp only [eq_true hgt, if_true]
      rfl
    refine ⟨_, _, hstep, rfl, rfl, rfl, rfl, rfl, rfl, hrefs, partInputs_idx _,
      fun hle => absurd hle (by omega), fun _ => ⟨?_, ?_, ?_⟩⟩
    · rw [hfr]
    · rw [insertFilePartsTx_length, partInputs_length, hceil]
    · rw [insertFilePartsTx_refs]
      exact hrefs

/-- Witness for C1: a 3-byte stream with maximum part size 2 uploaded into
the one-root store. -/
theorem upload_roundtrip_witness :
    ∃ st' f,
      closeUpload (uploadWrite (freshUpload 2 (Nat.succ_pos 1)) [7, 8, 9])
        rootOnlyStore 1 1 "f.bin" none ""
        = (.ok (), st') ∧
      st'.files = rootOnlyStore.files ++ [f] ∧
      f.id = rootOnlyStore.nextID ∧ f.userID = 1 ∧ f.dirID = 1 ∧
      f.name = "f.bin" ∧ f.size = ([7, 8, 9] : List Byte).length ∧
      ((partInputs (chunksOf 2 (Nat.succ_pos 1) [7, 8, 9])).map
        (fun q => q.telegramFileID)).flatten = [7, 8, 9] ∧
      (partInputs (chunksOf 2 (Nat.succ_pos 1) [7, 8, 9])).map
          (fun q => q.partIndex)
        = List.range (chunksOf 2 (Nat.succ_pos 1) [7, 8, 9]).length ∧
      (([7, 8, 9] : List Byte).length ≤ 2 →
        f.fileID = [7, 8, 9] ∧ st'.fileParts = rootOnlyStore.fileParts) ∧
      (2 < ([7, 8, 9] : List Byte).length →
        st'.fileParts = rootOnlyStore.fileParts ++
          insertFilePartsTx rootOnlyStore.nextID
            (partInputs (chunksOf 2 (Nat.succ_pos 1) [7, 8, 9])) ∧
        (insertFilePartsTx rootOnlyStore.nextID
          (partInputs (chunksOf 2 (Nat.succ_pos 1) [7, 8, 9]))).length
          = (([7, 8, 9] : List Byte).length + 2 - 1) / 2 ∧
        ((insertFilePartsTx rootOnlyStore.nextID
          (partInputs (chunksOf 2 (Nat.succ_pos 1) [7, 8, 9]))).map
          (fun q => q.telegramFileID)).flatten = [7, 8, 9]) :=
  upload_roundtrip 2 (Nat.succ_pos 1) [7, 8, 9] (by decide) rootOnlyStore
    1 1 "f.bin" "" rfl

/-! ## Claim C10 — empty uploads -/

/-- Claim C10: closing an upload stream to which zero bytes were ever
written (any sequence of empty writes) returns the "empty upload" error
and leaves the store unchanged — no file row and no part rows are
committed, whether or not the upload was replacing an existing file, so a
zero-byte file can never be created or replace a file through the WebDAV
write path. -/
theorem empty_upload_rejected (M : Nat) (hM : 0 < M)
    (ws : List (List Byte)) (hws : ∀ w ∈ ws, w = []) (st : Store)
    (userID dirID : Nat) (name mimeType : String) (existing : Option Nat) :
    closeUpload (ws.foldl uploadWrite (freshUpload M hM)) st userID dirID
      name existing mimeType = (.error (.invalidOp "empty upload"), st) := by
  have hu : uploadWrite (freshUpload M hM) [] = freshUpload M hM := by
    simp [uploadWrite, uploadWriteAux_nil, freshUpload]
  have hfold : ∀ l : List (List Byte), (∀ w ∈ l, w = []) →
      l.foldl uploadWrite (freshUpload M hM) = freshUpload M hM := by
    intro l
    induction l with
    | nil => intro _; rfl
    | cons w tws ih =>
        intro hl
        rw [List.foldl_cons, hl w (List.mem_cons_self w tws), hu]
        exact ih (fun x hx => hl x (List.mem_cons_of_mem w hx))
  rw [hfold ws hws]
  rfl

/-- Witness for C10: two empty writes then close, on the one-root store,
with and without an existing file id. -/
theorem empty_upload_rejected_witness :
    closeUpload ([[], []].foldl uploadWrite (freshUpload 2 (Nat.succ_pos 1)))
      rootOnlyStore 1 1 "f.bin" none ""
      = (.error (.invalidOp "empty upload"), rootOnlyStore) ∧
    closeUpload ([[], []].foldl uploadWrite (freshUpload 2 (Nat.succ_pos 1)))
      rootOnlyStore 1 1 "f.bin" (some 5) ""
      = (.error (.invalidOp "empty upload"), rootOnlyStore) :=
  ⟨empty_upload_rejected 2 (Nat.succ_pos 1) [[], []] (by decide)
      rootOnlyStore 1 1 "f.bin" "" none,
   empty_upload_rejected 2 (Nat.succ_pos 1) [[], []] (by decide)
      rootOnlyStore 1 1 "f.bin" "" (some 5)⟩

/-! ## Claim C7 — content replace preserves file identity -/

theorem chunksOf_ne_nil (M : Nat) (hM : 0 < M) (s : List Byte) :
    chunksOf M hM s ≠ [] := by
  rw [chunksOf]
  split
  · simp
  · simp

theorem chunksOf_headI (M : Nat) (hM : 0 < M) (s : List Byte) :
    (chunksOf M hM s).headI = s.take M := by
  rw [chunksOf]
  split
  · rename_i h
    exact (List.take_of_length_le h).symm
  · rfl

/-- Lookup `find?` commutes with mapping a function that does not change the
predicate's verdict. -/
theorem find?_map_comm {α : Type} (h : α → α) (pred : α → Bool)
    (hcomm : ∀ a, pred (h a) = pred a) (l : List α) :
    (l.map h).find? pred = (l.find? pred).map h := by
  induction l with
  | nil => rfl
  | cons a t ih =>
      by_cases hp : pred a = true
      · rw [List.map_cons, List.find?_cons_of_pos _ (by rw [hcomm]; exact hp),
          List.find?_cons_of_pos _ hp]
        rfl
      · rw [List.map_cons,
          List.find?_cons_of_neg _ (by rw [hcomm]; simpa using hp),
          List.find?_cons_of_neg _ (by simpa using hp), ih]

/-- Claim C7: closing a write-opened upload over a name already occupied
by file `f` (so the stream was opened with `existing = f`) replaces the
file's content while preserving the row's identity: the same file id
remains, in the same directory, now carrying the new primary blob
reference (the first chunk), the new size and mime type; the prior part
set is deleted and the new part rows inserted in the same transaction; and
an existing share referencing that file id still resolves, to the updated
row. -/
theorem write_open_replaces (M : Nat) (hM : 0 < M) (p : List Byte)
    (hp : p ≠ []) (st : Store) (userID parentDirID : Nat) (f : File)
    (name tok mimeType : String) (sh : Share)
    (hfind : st.files.find? (fun g => g.id = f.id && g.userID = userID)
      = some f)
    (hfind2 : st.files.find? (fun g => g.id = f.id) = some f)
    (havail : ensureNameAvailable st userID f.dirID name 0 f.id = .ok ())
    (hshfind : st.shares.find? (fun s2 => s2.token = tok) = some sh)
    (hshf : sh.fileID = f.id) :
    ∃ st' f',
      closeUpload (uploadWrite (freshUpload M hM) p) st userID parentDirID
        name (some f.id) mimeType = (.ok (), st') ∧
      getFileByID st' userID f.id = .ok f' ∧
      f'.id = f.id ∧ f'.dirID = f.dirID ∧ f'.name = name ∧
      f'.size = p.length ∧ f'.fileID = p.take M ∧
      f'.mimeType
        = (if mimeType = "" then "application/octet-stream" else mimeType) ∧
      st'.shares = st.shares ∧
      getShareByToken st' tok = .ok (sh, f') ∧
      st'.fileParts = st.fileParts.filter (fun q => !(q.fileID = f.id)) ++
        (if (partInputs (chunksOf M hM p)).length > 1 then
          insertFilePartsTx f.id (partInputs (chunksOf M hM p)) else []) := by
  have hclose := closeParts_write M hM p hp
  have htotal : (uploadWrite (freshUpload M hM) p).total = p.length := by
    rw [uploadWrite_fresh]
  obtain ⟨first, restP, hfr⟩ :
      ∃ a l, partInputs (chunksOf M hM p) = a :: l := by
    cases hx : partInputs (chunksOf M hM p) with
    | nil =>
        have hl := partInputs_length (chunksOf M hM p)
        rw [hx] at hl
        simp at hl
        exact absurd (List.length_eq_zero.mp hl.symm) (chunksOf_ne_nil M hM p)
    | cons a l => exact ⟨a, l, rfl⟩
  have hpc : partInputs (closeParts (uploadWrite (freshUpload M hM) p))
      = first :: restP := by
    rw [hclose, hfr]
  have hfirst : first.telegramFileID = p.take M := by
    have hrefs0 : (first :: restP).map (fun q => q.telegramFileID)
        = chunksOf M hM p := by
      rw [← hfr, partInputs_refs]
    rw [← chunksOf_headI M hM p, ← hrefs0]
    rfl
  have hpredf0 := List.find?_some hfind
  have hpredf : (f.id = f.id && f.userID = userID) = true := hpredf0
  have hany : st.files.any (fun g => g.id = f.id && g.userID = userID)
      = true :=
    List.any_eq_true.mpr ⟨f, List.mem_of_find?_eq_some hfind, hpredf⟩
  have hcomm1 : ∀ g : File,
      ((replaceRow f.id userID name first.telegramFileID first.fileUniqueID
          p.length mimeType g).id = f.id &&
        (replaceRow f.id userID name first.telegramFileID first.fileUniqueID
          p.length mimeType g).userID = userID)
      = (g.id = f.id && g.userID = userID) := by
    intro g
    rw [replaceRow]
    split
    · rfl
    · rfl
  have hcomm2 : ∀ g : File,
      (decide ((replaceRow f.id userID name first.telegramFileID
          first.fileUniqueID p.length mimeType g).id = f.id))
      = (decide (g.id = f.id)) := by
    intro g
    rw [replaceRow]
    split
    · rfl
    · rfl
  have hstep : closeUpload (uploadWrite (freshUpload M hM) p) st userID
      parentDirID name (some f.id) mimeType
      = (.ok (), { st with
          files := st.files.map (replaceRow f.id userID name
            first.telegramFileID first.fileUniqueID p.length mimeType),
          fileParts := st.fileParts.filter (fun q => !(q.fileID = f.id)) ++
            (if (first :: restP).length > 1 then
              insertFilePartsTx f.id (first :: restP) else []) }) := by
    simp only [closeUpload, hpc, replaceFileWithParts, getFileByID, hfind,
      havail, hany, if_true, htotal]
  refine ⟨_, replaceRow f.id userID name first.telegramFileID
    first.fileUniqueID p.length mimeType f, hstep,
    ?_, ?_, ?_, ?_, ?_, ?_, ?_, rfl, ?_, ?_⟩
  · rw [getFileByID]
    rw [find?_map_comm _ _ hcomm1, hfind]
    rfl
  · rw [replaceRow, if_pos hpredf]
  · rw [replaceRow, if_pos hpredf]
  · rw [replaceRow, if_pos hpredf]
  · rw [replaceRow, if_pos hpredf]
  · rw [replaceRow, if_pos hpredf, hfirst]
  · rw [replaceRow, if_pos hpredf]
  · simp only [getShareByToken, hshfind]
    rw [hshf, find?_map_comm _ _ hcomm2, hfind2]
    rfl
  · rw [hfr]

/-- Witness for C7: a 3-byte upload with maximum part size 2 replacing the
file `"a"` (id 2) of the share store; the share with token `"tok"` still
resolves, to the updated row. -/
theorem write_open_replaces_witness :
    ∃ st' f',
      closeUpload (uploadWrite (freshUpload 2 (Nat.succ_pos 1)) [7, 8, 9])
        shareStore 1 1 "a" (some 2) "" = (.ok (), st') ∧
      getFileByID st' 1 2 = .ok f' ∧
      f'.id = 2 ∧ f'.dirID = 1 ∧ f'.name = "a" ∧
      f'.size = 3 ∧ f'.fileID = [7, 8] ∧
      f'.mimeType = "application/octet-stream" ∧
      st'.shares = shareStore.shares ∧
      getShareByToken st' "tok" = .ok (⟨7, 2, "tok", none, 0⟩, f') ∧
      st'.fileParts = shareStore.fileParts.filter (fun q => !(q.fileID = 2)) ++
        (if (partInputs (chunksOf 2 (Nat.succ_pos 1) [7, 8, 9])).length > 1
         then insertFilePartsTx 2
           (partInputs (chunksOf 2 (Nat.succ_pos 1) [7, 8, 9]))
         else []) :=
  write_open_replaces 2 (Nat.succ_pos 1) [7, 8, 9] (by decide) shareStore 1 1
    ⟨2, 1, 1, "a", [9], [9], 1, "text/plain"⟩ "a" "tok" ""
    ⟨7, 2, "tok", none, 0⟩ rfl rfl rfl rfl rfl

/-! ## Claim C2 — seek then sequential read -/

theorem partsTail_zero : ∀ l : List ReadPart,
    partsTail l 0 = (l.map (fun q => q.content)).flatten := by
  intro l
  induction l with
  | nil => rfl
  | cons q rest ih => simp [partsTail, ih]

/-- The sequential-read denotation from `(i, po)` reads the remaining
parts: the tail of part `i` from `po`, then the rest. -/
theorem readToEnd_eq_partsTail :
    ∀ (n : Nat) (parts : List ReadPart) (i po : Nat),
      parts.length - i ≤ n →
      readToEnd parts i po = partsTail (parts.drop i) po := by
  intro n
  induction n with
  | zero =>
      intro parts i po hn
      rw [readToEnd, dif_neg (by omega), List.drop_eq_nil_of_le (by omega)]
      rfl
  | succ n ih =>
      intro parts i po hn
      by_cases h : i < parts.length
      · rw [readToEnd, dif_pos h, ih parts (i + 1) 0 (by omega),
          List.drop_eq_getElem_cons h]
        rfl
      · rw [readToEnd, dif_neg h, List.drop_eq_nil_of_le (by omega)]
        rfl

theorem locatePartAux_shift :
    ∀ (parts : List ReadPart) (off i t : Nat),
      locatePartAux parts (off + t) i t =
        ((locatePartAux parts off 0 0).1 + i,
         (locatePartAux parts off 0 0).2) := by
  intro parts
  induction parts with
  | nil =>
      intro off i t
      simp [locatePartAux]
  | cons q rest ih =>
      intro off i t
      by_cases h : off < q.size
      · rw [locatePartAux, if_pos (by omega)]
        rw [locatePartAux, if_pos (by omega)]
        simp
      · rw [locatePartAux, if_neg (by omega)]
        rw [locatePartAux, if_neg (by omega)]
        have h1 : off + t = (off - q.size) + (t + q.size) := by omega
        have h2 : off = (off - q.size) + (0 + q.size) := by omega
        rw [h1, ih (off - q.size) (i + 1) (t + q.size)]
        conv_rhs => rw [h2, ih (off - q.size) (0 + 1) (0 + q.size)]
        simp only [Prod.mk.injEq]
        constructor
        · omega
        · trivial

theorem locatePart_cons (q : ReadPart) (rest : List ReadPart) (off : Nat) :
    locatePart (q :: rest) off =
      if off < q.size then (0, off)
      else ((locatePart rest (off - q.size)).1 + 1,
            (locatePart rest (off - q.size)).2) := by
  rw [locatePart]
  by_cases h : off < q.size
  · rw [locatePartAux, if_pos (by omega), if_pos h]
    simp
  · rw [locatePartAux, if_neg (by omega), if_neg h]
    have h2 : off = (off - q.size) + (0 + q.size) := by omega
    rw [h2, locatePartAux_shift rest (off - q.size) (0 + 1) (0 + q.size)]
    rw [locatePart]
    simp

/-- Repositioning with `locatePart` and reading the remaining parts yields
the suffix of the whole stream from the absolute offset. -/
theorem locate_partsTail :
    ∀ (parts : List ReadPart) (off : Nat),
      (∀ q ∈ parts, q.size = q.content.length) →
      off ≤ (parts.map (fun q => q.size)).sum →
      partsTail (parts.drop (locatePart parts off).1) (locatePart parts off).2
        = ((parts.map (fun q => q.content)).flatten).drop off := by
  intro parts
  induction parts with
  | nil =>
      intro off _ _
      simp [locatePart, locatePartAux, partsTail]
  | cons q rest ih =>
      intro off hsz hO
      have hq : q.size = q.content.length :=
        hsz q (List.mem_cons_self q rest)
      rw [locatePart_cons]
      by_cases h : off < q.size
      · rw [if_pos h]
        simp only [List.drop_zero, partsTail, List.map_cons,
          List.flatten_cons, partsTail_zero]
        rw [List.drop_append_eq_append_drop,
          (by omega : off - q.content.length = 0), List.drop_zero]
      · rw [if_neg h]
        simp only [List.drop_succ_cons]
        rw [ih (off - q.size)
          (fun q2 hq2 => hsz q2 (List.mem_cons_of_mem q hq2))
          (by
            simp only [List.map_cons, List.sum_cons] at hO
            omega)]
        simp only [List.map_cons, List.flatten_cons]
        rw [List.drop_append_eq_append_drop,
          List.drop_eq_nil_of_le (by omega : q.content.length ≤ off),
          List.nil_append]
        congr 1
        omega

/-- Claim C2: for a download stream whose part rows carry the sizes of
their blobs, and any offset `O ≤ totalSize`, `Seek(O, SeekStart)` succeeds
and reading sequentially to end-of-stream yields exactly the bytes of
reading the whole stream from 0 and discarding the first `O`. -/
theorem seek_then_read (parts : List ReadPart) (fileSize O : Nat)
    (hsz : ∀ q ∈ parts, q.size = q.content.length)
    (hfs : fileSize = (parts.map (fun q => q.size)).sum)
    (hO : O ≤ readTotalSize fileSize parts) :
    ∃ i po, seekStart parts (readTotalSize fileSize parts) O = .ok (i, po) ∧
      readToEnd parts i po = (readToEnd parts 0 0).drop O := by
  have htot : readTotalSize fileSize parts
      = (parts.map (fun q => q.size)).sum := by
    rw [readTotalSize]
    split
    · rfl
    · exact hfs
  have hseek : seekStart parts (readTotalSize fileSize parts) O
      = .ok (if 0 < parts.length then locatePart parts O else (0, 0)) := by
    rw [seekStart, if_neg (by omega)]
  have hzero : readToEnd parts 0 0
      = (parts.map (fun q => q.content)).flatten := by
    rw [readToEnd_eq_partsTail parts.length parts 0 0 (by omega),
      List.drop_zero, partsTail_zero]
  by_cases hp : 0 < parts.length
  · refine ⟨(locatePart parts O).1, (locatePart parts O).2, ?_, ?_⟩
    · rw [hseek, if_pos hp]
    · rw [readToEnd_eq_partsTail parts.length parts _ _ (by omega), hzero]
      exact locate_partsTail parts O hsz (by omega)
  · have hempty : parts = [] := by
      cases parts with
      | nil => rfl
      | cons a l => simp at hp
    subst hempty
    refine ⟨0, 0, by rw [hseek, if_neg hp], ?_⟩
    rw [hzero]
    simp

/-- Witness for C2: a two-part stream (sizes 2 and 3) sought to offset 3. -/
theorem seek_then_read_witness :
    ∃ i po,
      seekStart [⟨2, [9, 8]⟩, ⟨3, [7, 6, 5]⟩]
        (readTotalSize 5 [⟨2, [9, 8]⟩, ⟨3, [7, 6, 5]⟩]) 3 = .ok (i, po) ∧
      readToEnd [⟨2, [9, 8]⟩, ⟨3, [7, 6, 5]⟩] i po
        = (readToEnd [⟨2, [9, 8]⟩, ⟨3, [7, 6, 5]⟩] 0 0).drop 3 :=
  seek_then_read [⟨2, [9, 8]⟩, ⟨3, [7, 6, 5]⟩] 5 3 (by decide) rfl
    (by decide)

end Pigpak
